import Mathlib

/-!
# email-scraper: the resumable extract / validate / dedupe pipeline

A shallow embedding of `email-validator/main.go` (the same functions appear, with the
same bodies, in `email-scraper-from-file/main.go`).

* Go strings and byte slices are lists of byte values (`Bytes`); `len` is `List.length`.
* The three durable files (`output.json`, `domains.txt`, `persistent.txt`) are the byte
  contents of the files; appending to a file is list append.  Writes are taken to succeed.
* The two global maps `emails` and `domains` are lists of keys (insertion is `::`,
  lookup is membership).
* Library calls are modelled from their documented behaviour:
  `bufio.Reader.ReadLine` (default 4096-byte buffer), `regexp` (leftmost-first
  backtracking semantics), `strings.Split`, `strconv.Atoi` / `Itoa`,
  `json.Encoder.Encode`.  `net.LookupNS` and `json.Unmarshal` are parameters (`Env`).
* Go `int` is modelled by `Int` (no 64-bit wrap-around; file offsets stay far below it).
-/

namespace EmailScraper

/-- A Go string or byte slice, as the list of its bytes. -/
abbrev Bytes := List Nat

/-- The bytes of an ASCII literal. -/
def ascii (s : String) : Bytes := s.toList.map Char.toNat

/-! ## Regular expressions (the fragment of RE2 syntax the two patterns use) -/

/-- Regular expressions over bytes.  `cls p` is a one-byte class or literal (every class in
the source is a set of ASCII bytes, so a byte of a multi-byte rune never matches);
`bot` and `eot` are `^` and `$` without the multi-line flag. -/
inductive Re where
  | cls (p : Nat → Bool)
  | seq (a b : Re)
  | opt (a : Re)
  | star (a : Re)
  | plus (a : Re)
  | rep (a : Re) (lo hi : Nat)
  | bot
  | eot

/-- Greedy iteration `a*`: the remainders after zero or more rounds of `f`, longest
attempt first.  A round must consume input, so `fuel = s.length` rounds always suffice. -/
def starRun (f : Bytes → List Bytes) : Nat → Bytes → List Bytes
  | 0, s => [s]
  | k + 1, s =>
    ((f s).filter fun t => decide (t.length < s.length)).flatMap (starRun f k) ++ [s]

/-- Greedy bounded repetition `a{lo,hi}`. -/
def repRun (f : Bytes → List Bytes) : Nat → Nat → Bytes → List Bytes
  | lo, 0, s => if lo = 0 then [s] else []
  | lo, hi + 1, s => (f s).flatMap (repRun f (lo - 1) hi) ++ (if lo = 0 then [s] else [])

/-- Backtracking matcher: `re.run n s` lists, in the order a backtracking search tries
them, the remainders of `s` after a match of `re` starting at the head of `s`; `n` is the
length of the whole text (needed by `^`). -/
def Re.run (n : Nat) : Re → Bytes → List Bytes
  | .cls p, s =>
    match s with
    | [] => []
    | b :: t => if p b then [t] else []
  | .seq a b, s => (Re.run n a s).flatMap (Re.run n b)
  | .opt a, s => Re.run n a s ++ [s]
  | .star a, s => starRun (Re.run n a) s.length s
  | .plus a, s => (Re.run n a s).flatMap fun t => starRun (Re.run n a) t.length t
  | .rep a lo hi, s => repRun (Re.run n a) lo hi s
  | .bot, s => if s.length = n then [s] else []
  | .eot, s => if s = [] then [s] else []

/-- Model of `(*Regexp).MatchString`: some position of the text starts a match. -/
def matchString (re : Re) (s : Bytes) : Bool :=
  s.tails.any fun t => !(re.run s.length t).isEmpty

/-- Scan of `(*Regexp).FindAll(haystack, -1)`: at each position not inside the previous
match, take the first (leftmost-first) match; `skip` counts the bytes of the previous
match still to step over.  A match of length zero is never a candidate here (it has no
`@`, so `domainCheck` rejects it), and the scan moves on by one byte. -/
def findAllFrom (re : Re) (n : Nat) : Nat → Bytes → List Bytes
  | _, [] => []
  | skip + 1, _ :: t => findAllFrom re n skip t
  | 0, b :: t =>
    match (re.run n (b :: t)).head? with
    | some rest =>
      if rest.length < (b :: t).length then
        (b :: t).take ((b :: t).length - rest.length) ::
          findAllFrom re n ((b :: t).length - rest.length - 1) t
      else findAllFrom re n 0 t
    | none => findAllFrom re n 0 t

/-- Letters and digits: `[a-zA-Z0-9]`. -/
def isAlnum (b : Nat) : Bool :=
  (decide (48 ≤ b) && decide (b ≤ 57)) || (decide (65 ≤ b) && decide (b ≤ 90)) ||
    (decide (97 ≤ b) && decide (b ≤ 122))

/-- The class `[A-Za-z0-9.-]` of the extraction pattern. -/
def isFindChar (b : Nat) : Bool := isAlnum b || b == 46 || b == 45

/-- The local-part class of `syntaxCheck`: letters, digits and
`. ! # $ % & ' * + / = ? ^ _ backtick { | } ~ -`. -/
def isLocalChar (b : Nat) : Bool :=
  isAlnum b ||
    [46, 33, 35, 36, 37, 38, 39, 42, 43, 47, 61, 63, 94, 95, 96, 123, 124, 125, 126, 45].contains b

/-- The class `[a-zA-Z0-9-]`. -/
def isLabelChar (b : Nat) : Bool := isAlnum b || b == 45

/-- The default extraction pattern `[A-Za-z0-9.-]+@[A-Za-z0-9.-]+\.[A-Za-z0-9]{2,4}`. -/
def defaultFindRegexp : Re :=
  .seq (.plus (.cls isFindChar))
    (.seq (.cls (· == 64))
      (.seq (.plus (.cls isFindChar))
        (.seq (.cls (· == 46)) (.rep (.cls isAlnum) 2 4))))

/-- One DNS label of the syntax pattern: `[a-zA-Z0-9](?:[a-zA-Z0-9-]{0,61}[a-zA-Z0-9])?`. -/
def labelRe : Re :=
  .seq (.cls isAlnum) (.opt (.seq (.rep (.cls isLabelChar) 0 61) (.cls isAlnum)))

/-- The pattern of `syntaxCheck`:
`^[local]+@label(?:\.label)*$`. -/
def syntaxRegexp : Re :=
  .seq .bot
    (.seq (.plus (.cls isLocalChar))
      (.seq (.cls (· == 64))
        (.seq labelRe
          (.seq (.star (.seq (.cls (· == 46)) labelRe)) .eot))))

/-- Model of `syntaxCheck`. -/
def syntaxCheck (email : Bytes) : Bool := matchString syntaxRegexp email

/-! ## Line reader, integers, JSON -/

/-- How `ReadSlice` stopped: at the delimiter, on a full buffer, or at end of input. -/
inductive SliceEnd where
  | delim
  | full
  | eof
  deriving DecidableEq

/-- Size of the buffer `bufio.NewReader` allocates. -/
def defaultBufSize : Nat := 4096

/-- Model of `ReadSlice` with `room` bytes of buffer left: the bytes before the newline
(the newline itself is consumed), the unread rest, and how the read stopped. -/
def readSlice : Nat → Bytes → Bytes × Bytes × SliceEnd
  | 0, s => ([], s, .full)
  | _ + 1, [] => ([], [], .eof)
  | room + 1, b :: s =>
    if b = 10 then ([], s, .delim)
    else ((b :: (readSlice room s).1), (readSlice room s).2.1, (readSlice room s).2.2)

/-- Model of `bufio.Reader.ReadLine` (the `isPrefix` result is dropped, as the callers do):
`none` at end of input, else the line and the unread rest.  A line end `\n` or `\r\n` is
removed; a line that does not fit the buffer is returned in pieces, a trailing `\r` of a
full buffer being left for the next read; the last line needs no line end. -/
def readLine (s : Bytes) : Option (Bytes × Bytes) :=
  match s with
  | [] => none
  | _ :: _ =>
    match readSlice defaultBufSize s with
    | (l, r, .delim) => some (if l.getLast? = some 13 then l.dropLast else l, r)
    | (l, r, .full) => if l.getLast? = some 13 then some (l.dropLast, 13 :: r) else some (l, r)
    | (l, r, .eof) => some (l, r)

/-- The lines `fuel` successive `ReadLine` calls return before end of input. -/
def readLinesAux : Nat → Bytes → List Bytes
  | 0, _ => []
  | k + 1, s =>
    match readLine s with
    | none => []
    | some (l, r) => l :: readLinesAux k r

/-- All lines a `ReadLine` loop returns until `io.EOF` (each call consumes a byte, so
`s.length` calls reach the end). -/
def readLines (s : Bytes) : List Bytes := readLinesAux s.length s

/-- Serialisation of lines, each followed by a newline. -/
def joinLines (ls : List Bytes) : Bytes := ls.flatMap fun l => l ++ [10]

/-- Value of a string of decimal digits; `none` on a byte that is no digit. -/
def parseDigits (ds : Bytes) : Option Nat :=
  ds.foldl (fun acc d => acc.bind fun n =>
    if 48 ≤ d ∧ d ≤ 57 then some (n * 10 + (d - 48)) else none) (some 0)

/-- Model of `strconv.Atoi` with its error dropped: optional sign, then one or more digits;
anything else yields 0. -/
def atoi (s : Bytes) : Int :=
  match s with
  | [] => 0
  | 43 :: ds => if ds = [] then 0 else ((parseDigits ds).map Int.ofNat).getD 0
  | 45 :: ds => if ds = [] then 0 else ((parseDigits ds).map fun n => -Int.ofNat n).getD 0
  | ds => ((parseDigits ds).map Int.ofNat).getD 0

/-- Decimal digits of `n`, most significant first, in front of `acc`. -/
def natToDecAux : Nat → Nat → Bytes → Bytes
  | 0, _, acc => acc
  | f + 1, n, acc =>
    if n < 10 then (48 + n) :: acc else natToDecAux f (n / 10) ((48 + n % 10) :: acc)

/-- Decimal representation of a natural number. -/
def natToDec (n : Nat) : Bytes := natToDecAux (n + 1) n []

/-- Model of `strconv.Itoa`. -/
def itoa (n : Int) : Bytes :=
  match n with
  | .ofNat m => natToDec m
  | .negSucc m => 45 :: natToDec (m + 1)

/-- Model of `bufio.Reader.Discard` with its error dropped: a negative count discards
nothing, a count past the end discards everything. -/
def discard (n : Int) (s : Bytes) : Bytes := if n < 0 then s else s.drop n.toNat

/-- Lower-case hexadecimal digit. -/
def hexDigit (n : Nat) : Nat := if n < 10 then 48 + n else 87 + n

/-- How `json.Encoder` (HTML escaping on) writes one byte of a string. -/
def escapeByte (b : Nat) : Bytes :=
  if b = 34 then [92, 34]
  else if b = 92 then [92, 92]
  else if b = 10 then [92, 110]
  else if b = 13 then [92, 114]
  else if b = 9 then [92, 116]
  else if b < 32 ∨ b = 60 ∨ b = 62 ∨ b = 38 then
    [92, 117, 48, 48, hexDigit (b / 16), hexDigit (b % 16)]
  else [b]

/-- The line `json.Encoder.Encode(EmailField{Email: email})` writes, without its final
newline: `{"Email":"..."}`. -/
def encodeEmailField (email : Bytes) : Bytes :=
  [123, 34, 69, 109, 97, 105, 108, 34, 58, 34] ++ email.flatMap escapeByte ++ [34, 125]

/-- Value of a hexadecimal digit. -/
def hexVal (c : Nat) : Option Nat :=
  if 48 ≤ c ∧ c ≤ 57 then some (c - 48)
  else if 97 ≤ c ∧ c ≤ 102 then some (c - 87)
  else if 65 ≤ c ∧ c ≤ 70 then some (c - 55)
  else none

/-- Decoder of a JSON string body up to its closing quote, for the escapes `escapeByte`
writes: the decoded bytes and what follows the closing quote. -/
def unquote : Nat → Bytes → Option (Bytes × Bytes)
  | 0, _ => none
  | _ + 1, [] => none
  | k + 1, b :: s =>
    if b = 34 then some ([], s)
    else if b = 92 then
      match s with
      | 117 :: 48 :: 48 :: h :: l :: r =>
        match hexVal h, hexVal l, unquote k r with
        | some x, some y, some (e, t) => some ((x * 16 + y) :: e, t)
        | _, _, _ => none
      | c :: r =>
        match unquote k r with
        | some (e, t) =>
          if c = 110 then some (10 :: e, t)
          else if c = 114 then some (13 :: e, t)
          else if c = 116 then some (9 :: e, t)
          else if c = 34 ∨ c = 92 then some (c :: e, t)
          else none
        | none => none
      | [] => none
    else
      match unquote k s with
      | some (e, t) => some (b :: e, t)
      | none => none

/-- A concrete stand-in for `json.Unmarshal(line, &EmailField{})` followed by reading
`.Email`, exact on the lines `encodeEmailField` writes; every other line leaves the
field empty.  Used to instantiate `Env.unmarshal`. -/
def unmarshalEmailField (line : Bytes) : Bytes :=
  match line with
  | 123 :: 34 :: 69 :: 109 :: 97 :: 105 :: 108 :: 34 :: 58 :: 34 :: body =>
    match unquote body.length body with
    | some (e, [125]) => e
    | _ => []
  | _ => []

/-! ## Program state and the functions of `main.go` -/

/-- What the program does not define itself: the configured extraction pattern, the
name-server lookup (`len(nameservers)` of `net.LookupNS`, whose error the code drops) and
`json.Unmarshal` into an `EmailField` (the resulting `Email`). -/
structure Env where
  findCommonRegexp : Re
  lookupNS : Bytes → Nat
  unmarshal : Bytes → Bytes

/-- The three durable files. -/
structure Files where
  output : Bytes
  domainsFile : Bytes
  persistent : Bytes
  deriving DecidableEq

/-- Program state: the maps `emails` and `domains`, the files, and (as instrumentation)
the arguments of the `net.LookupNS` calls made so far. -/
structure State where
  emails : List Bytes
  domains : List Bytes
  files : Files
  queries : List Bytes
  deriving DecidableEq

/-- Model of `Find`. -/
def Find (env : Env) (haystack : Bytes) : List Bytes :=
  findAllFrom env.findCommonRegexp haystack.length 0 haystack

/-- Model of `strings.Split(s, sep)` for a one-byte separator. -/
def stringsSplit (sep : Nat) : Bytes → List Bytes
  | [] => [[]]
  | b :: s =>
    if b = sep then [] :: stringsSplit sep s
    else
      match stringsSplit sep s with
      | [] => [[b]]
      | h :: t => (b :: h) :: t

/-- The expression `strings.Split(email, "@")[1]` of `domainCheck`. -/
def domainOf (email : Bytes) : Bytes := (stringsSplit 64 email).getD 1 []

/-- Model of `isUnique`. -/
def isUnique (emails : List Bytes) (email : Bytes) : Bool := !emails.contains email

/-- Model of `checkDomainInFile`. -/
def checkDomainInFile (domains : List Bytes) (domain : Bytes) : Bool := domains.contains domain

/-- Model of `saveDomainInFile`: `fmt.Fprintln` appends the domain and a newline. -/
def saveDomainInFile (fs : Files) (domain : Bytes) : Files :=
  { fs with domainsFile := fs.domainsFile ++ (domain ++ [10]) }

/-- Model of `saveEmailInFile`: `Encode` appends the record and a newline. -/
def saveEmailInFile (fs : Files) (email : Bytes) : Files :=
  { fs with output := fs.output ++ (encodeEmailField email ++ [10]) }

/-- Model of `domainCheck`. -/
def domainCheck (env : Env) (st : State) (email : Bytes) : Bool × State :=
  if !email.contains 64 then (false, st)
  else if checkDomainInFile st.domains (domainOf email) then (true, st)
  else if 0 < env.lookupNS (domainOf email) then
    (true, { st with
      files := saveDomainInFile st.files (domainOf email)
      domains := domainOf email :: st.domains
      queries := st.queries ++ [domainOf email] })
  else (false, { st with queries := st.queries ++ [domainOf email] })

/-- Model of `validateEmail`: the domain check runs first, then the syntax check. -/
def validateEmail (env : Env) (st : State) (email : Bytes) : Bool × State :=
  if !(domainCheck env st email).1 then (false, (domainCheck env st email).2)
  else if !syntaxCheck email then (false, (domainCheck env st email).2)
  else (true, (domainCheck env st email).2)

/-- Body of the inner loop of `main` for one candidate `e`. -/
def processEmail (env : Env) (st : State) (e : Bytes) : State :=
  if !isUnique st.emails e then st
  else if !(validateEmail env st e).1 then (validateEmail env st e).2
  else
    { (validateEmail env st e).2 with
      files := saveEmailInFile (validateEmail env st e).2.files e
      emails := e :: (validateEmail env st e).2.emails }

/-- Body of the outer loop of `main` for one line: advance `curNum`, handle the
candidates, rewrite the checkpoint file. -/
def processLine (env : Env) (p : Int × State) (line : Bytes) : Int × State :=
  (p.1 + (line.length : Int) + 1,
    { (Find env line).foldl (processEmail env) p.2 with
      files := { ((Find env line).foldl (processEmail env) p.2).files with
        persistent := itoa (p.1 + (line.length : Int) + 1) } })

/-- Model of `readEmails`: every line of the output log adds the decoded `Email`. -/
def readEmails (env : Env) (emails : List Bytes) (output : Bytes) : List Bytes :=
  (readLines output).foldl (fun m line => env.unmarshal line :: m) emails

/-- Model of `readDomains`: every line of the domains log is a key. -/
def readDomains (domains : List Bytes) (domainsFile : Bytes) : List Bytes :=
  (readLines domainsFile).foldl (fun m line => line :: m) domains

/-- The checkpoint `main` starts from: `Atoi` of the first line of the checkpoint file. -/
def loadCheckpoint (persistent : Bytes) : Int :=
  match readLine persistent with
  | none => atoi []
  | some (l, _) => atoi l

/-- The start of `main`: seed both maps from the logs and load the checkpoint. -/
def startup (env : Env) (fs : Files) : Int × State :=
  (loadCheckpoint fs.persistent,
    { emails := readEmails env [] fs.output
      domains := readDomains [] fs.domainsFile
      files := fs
      queries := [] })

/-- The lines the loop of `main` reads: the input after discarding `curNum` bytes. -/
def inputLines (input : Bytes) (curNum : Int) : List Bytes := readLines (discard curNum input)

/-- The run of `main` stopped after the loop has handled `k` lines (or at end of input,
if that comes first): the value of `curNum` and the state at that moment. -/
def mainSteps (env : Env) (input : Bytes) (fs : Files) (k : Nat) : Int × State :=
  ((inputLines input (startup env fs).1).take k).foldl (processLine env) (startup env fs)

/-- Model of `main`: a complete run over the input, returning the files it leaves. -/
def main (env : Env) (input : Bytes) (fs : Files) : Files :=
  ((inputLines input (startup env fs).1).foldl (processLine env) (startup env fs)).2.files

/-- Environment with the default pattern and the stand-in decoder. -/
def defaultEnv (lookupNS : Bytes → Nat) : Env :=
  { findCommonRegexp := defaultFindRegexp, lookupNS := lookupNS, unmarshal := unmarshalEmailField }

/-- No file exists yet. -/
def noFiles : Files := { output := [], domainsFile := [], persistent := [] }

/-! ## The grammar of the specification (for comparison with `syntaxCheck`) -/

/-- The letters `a-z A-Z` the claim allows. -/
def specLetters : Bytes := ascii "abcdefghijklmnopqrstuvwxyzABCDEFGHIJKLMNOPQRSTUVWXYZ"

/-- The digits `0-9`. -/
def specDigits : Bytes := ascii "0123456789"

/-- The further characters the claim allows in a local part:
`. ! # $ % & ' * + / = ? ^ _ backtick { | } ~ -`. -/
def specLocalSymbols : Bytes := ascii ".!#$%&\x27*+/=?^_\x60\x7b|\x7d~-"

/-- A DNS label as the specification words it: 1 to 63 characters drawn from letters,
digits and the hyphen (byte 45), neither starting nor ending with a hyphen. -/
def IsLabel (l : Bytes) : Prop :=
  1 ≤ l.length ∧ l.length ≤ 63 ∧ (∀ b ∈ l, b ∈ specLetters ∨ b ∈ specDigits ∨ b = 45) ∧
    l.head? ≠ some 45 ∧ l.getLast? ≠ some 45

/-- The strict grammar of the specification: the whole string is a non-empty local part
over the allowed characters, one `@` (byte 64), then one or more labels separated by
single dots (byte 46). -/
def SpecEmail (s : Bytes) : Prop :=
  ∃ (L : Bytes) (l0 : Bytes) (ls : List Bytes),
    L ≠ [] ∧ (∀ b ∈ L, b ∈ specLetters ∨ b ∈ specDigits ∨ b ∈ specLocalSymbols) ∧
      IsLabel l0 ∧ (∀ l ∈ ls, IsLabel l) ∧ s = L ++ [64] ++ [46].intercalate (l0 :: ls)

/-- The matcher `f` recognises exactly the words of `W`: its remainders of `s` are the
`u` with `s = w ++ u` for a word `w`. -/
def Recognizes (f : Bytes → List Bytes) (W : Bytes → Prop) : Prop :=
  ∀ s u, u ∈ f s ↔ ∃ w, W w ∧ s = w ++ u
/-- A lookup oracle under which exactly the listed domains have a name server. -/
def resolving (ds : List Bytes) : Bytes → Nat := fun d => if ds.contains d then 1 else 0

/-- The input line of the scenario in the specification. -/
def scenarioLine : Bytes := ascii "contact us at john@example.com or spam@bad-nx-domain.invalid"

/-- State of a run that starts with no files. -/
def freshState : State := { emails := [], domains := [], files := noFiles, queries := [] }
/-- A file is empty or ends with a newline. -/
def EndsNL (f : Bytes) : Prop := f = [] ∨ f.getLast? = some 10

/-- Two states with the same files and the same keys in both maps. -/
def SameView (a b : State) : Prop :=
  a.files = b.files ∧ (∀ x, x ∈ a.emails ↔ x ∈ b.emails) ∧ (∀ x, x ∈ a.domains ↔ x ∈ b.domains)

/-- The maps hold exactly the keys a fresh start would read from the two logs, and both
logs are empty or end with a newline. -/
def Synced (env : Env) (st : State) : Prop :=
  (∀ x, x ∈ st.emails ↔ x ∈ readEmails env [] st.files.output) ∧
    (∀ x, x ∈ st.domains ↔ x ∈ readDomains [] st.files.domainsFile) ∧
    EndsNL st.files.output ∧ EndsNL st.files.domainsFile

/-- A line or candidate free of newline and carriage-return bytes whose record, domain
entry and the line itself all fit the reader's buffer. -/
def Small (l : Bytes) : Prop := 10 ∉ l ∧ 13 ∉ l ∧ 6 * l.length + 12 < defaultBufSize

/-! ## Domain extraction and the domain check -/

theorem stringsSplit_ne_nil (sep : Nat) (s : Bytes) : stringsSplit sep s ≠ [] := by
  induction s with
  | nil => simp [stringsSplit]
  | cons b s ih =>
    unfold stringsSplit
    split
    · simp
    · split <;> simp

theorem stringsSplit_no_sep (sep : Nat) (s : Bytes) (h : sep ∉ s) : stringsSplit sep s = [s] := by
  induction s with
  | nil => simp [stringsSplit]
  | cons b s ih =>
    have hb : b ≠ sep := fun e => h (by simp [e])
    have hs : sep ∉ s := fun e => h (by simp [e])
    simp [stringsSplit, hb, ih hs]

theorem stringsSplit_append (sep : Nat) (pre rest : Bytes) (h : sep ∉ pre) :
    stringsSplit sep (pre ++ sep :: rest) = pre :: stringsSplit sep rest := by
  induction pre with
  | nil => simp [stringsSplit]
  | cons b s ih =>
    have hb : b ≠ sep := fun e => h (by simp [e])
    have hs : sep ∉ s := fun e => h (by simp [e])
    simp [stringsSplit, hb, ih hs]

theorem stringsSplit_head (sep : Nat) (mid rest : Bytes) (h : sep ∉ mid)
    (hr : rest = [] ∨ rest.head? = some sep) : (stringsSplit sep (mid ++ rest)).head? = some mid := by
  rcases hr with hr | hr
  · subst hr; simp [stringsSplit_no_sep sep mid h]
  · cases rest with
    | nil => simp at hr
    | cons c r =>
      simp at hr; subst hr
      simp [stringsSplit_append c mid r h]

theorem domainOf_eq (pre mid rest : Bytes) (hpre : 64 ∉ pre) (hmid : 64 ∉ mid)
    (hr : rest = [] ∨ rest.head? = some 64) : domainOf (pre ++ 64 :: mid ++ rest) = mid := by
  have h1 : pre ++ 64 :: mid ++ rest = pre ++ 64 :: (mid ++ rest) := by simp
  have h2 := stringsSplit_head 64 mid rest hmid hr
  rw [h1]
  unfold domainOf
  rw [stringsSplit_append 64 pre _ hpre]
  cases h3 : stringsSplit 64 (mid ++ rest) with
  | nil => exact absurd h3 (stringsSplit_ne_nil _ _)
  | cons a t => rw [h3] at h2; simp at h2; simp [h2]

theorem domainCheck_domains_mono (env : Env) (st : State) (email : Bytes) :
    (∀ d ∈ st.domains, d ∈ (domainCheck env st email).2.domains) ∧
      st.files.domainsFile <+: (domainCheck env st email).2.files.domainsFile := by
  unfold domainCheck
  split
  · simp
  · split
    · simp
    · split
      · simp only [saveDomainInFile]
        refine ⟨fun d hd => List.mem_cons_of_mem _ hd, ?_⟩
        exact List.prefix_append _ _
      · simp

/-- C8. Cache hit needs no lookup: when the string contains `@` and the domain the code
extracts from it (`strings.Split(email, "@")[1]`) is in the cache, `domainCheck` returns
true and leaves the whole state unchanged (cache, files, and the record of lookups made:
none is added), whatever lookup function is injected. -/
theorem cache_hit_needs_no_lookup (env : Env) (st : State) (email : Bytes)
    (hat : 64 ∈ email) (hhit : domainOf email ∈ st.domains) (lookupNS : Bytes → Nat) :
    domainCheck { env with lookupNS := lookupNS } st email = (true, st) := by
  have h2 : checkDomainInFile st.domains (domainOf email) = true := by
    simpa [checkDomainInFile] using hhit
  simp [domainCheck, hat, h2]

/-- C8 at a concrete input: `john@example.com` with `example.com` cached, under a lookup that always fails and under one that always answers. -/
theorem cache_hit_needs_no_lookup_witness :
    domainCheck { defaultEnv (resolving []) with lookupNS := resolving [] }
        { emails := [], domains := [ascii "example.com"], files := noFiles, queries := [] }
        (ascii "john@example.com") =
      (true, { emails := [], domains := [ascii "example.com"], files := noFiles, queries := [] }) ∧
    domainCheck { defaultEnv (resolving []) with lookupNS := fun _ => 7 }
        { emails := [], domains := [ascii "example.com"], files := noFiles, queries := [] }
        (ascii "john@example.com") =
      (true, { emails := [], domains := [ascii "example.com"], files := noFiles, queries := [] }) :=
  ⟨cache_hit_needs_no_lookup (defaultEnv (resolving []))
      { emails := [], domains := [ascii "example.com"], files := noFiles, queries := [] }
      (ascii "john@example.com") (by decide) (by decide) (resolving []),
    cache_hit_needs_no_lookup (defaultEnv (resolving []))
      { emails := [], domains := [ascii "example.com"], files := noFiles, queries := [] }
      (ascii "john@example.com") (by decide) (by decide) (fun _ => 7)⟩

/-- C9. No negative cache, and the cache only grows: for a string with `@` whose domain is
not cached, `domainCheck` returns true exactly when the lookup returns at least one
record; then the domain is added to the cache and appended (with a newline) to the domains
log; with zero records it returns false and cache and files are unchanged.  In every case
(any string, any state) the cached domains are kept and the domains log only grows. -/
theorem no_negative_cache (env : Env) (st : State) (email : Bytes)
    (hat : 64 ∈ email) (hmiss : domainOf email ∉ st.domains) :
    ((domainCheck env st email).1 = true ↔ 0 < env.lookupNS (domainOf email)) ∧
    (0 < env.lookupNS (domainOf email) →
      (domainCheck env st email).2.domains = domainOf email :: st.domains ∧
      (domainCheck env st email).2.files =
        { st.files with domainsFile := st.files.domainsFile ++ (domainOf email ++ [10]) }) ∧
    (env.lookupNS (domainOf email) = 0 →
      (domainCheck env st email).1 = false ∧
      (domainCheck env st email).2.domains = st.domains ∧
      (domainCheck env st email).2.files = st.files) ∧
    (∀ (st1 : State) (email1 : Bytes),
      (∀ d ∈ st1.domains, d ∈ (domainCheck env st1 email1).2.domains) ∧
        st1.files.domainsFile <+: (domainCheck env st1 email1).2.files.domainsFile) := by
  have h1 := hat
  have h2 : checkDomainInFile st.domains (domainOf email) = false := by
    simpa [checkDomainInFile] using hmiss
  refine ⟨?_, ?_, ?_, fun st1 email1 => domainCheck_domains_mono env st1 email1⟩
  · by_cases h : 0 < env.lookupNS (domainOf email) <;> simp [domainCheck, h1, h2, h]
  · intro h
    simp [domainCheck, h1, h2, h, saveDomainInFile]
  · intro h
    simp [domainCheck, h1, h2, h]

/-- C9 at a concrete input: `john@example.com` with only `other.org` cached and `example.com` resolving. -/
theorem no_negative_cache_witness :
    ((domainCheck (defaultEnv (resolving [ascii "example.com"]))
        { emails := [], domains := [ascii "other.org"], files := noFiles, queries := [] }
        (ascii "john@example.com")).1 = true ↔
      0 < (defaultEnv (resolving [ascii "example.com"])).lookupNS
        (domainOf (ascii "john@example.com"))) ∧
    (domainCheck (defaultEnv (resolving [ascii "example.com"]))
        { emails := [], domains := [ascii "other.org"], files := noFiles, queries := [] }
        (ascii "john@example.com")).2.domains = [ascii "example.com", ascii "other.org"] ∧
    (domainCheck (defaultEnv (resolving [ascii "example.com"]))
        { emails := [], domains := [ascii "other.org"], files := noFiles, queries := [] }
        (ascii "john@example.com")).2.files.domainsFile = ascii "example.com\n" :=
  ⟨(no_negative_cache (defaultEnv (resolving [ascii "example.com"]))
      { emails := [], domains := [ascii "other.org"], files := noFiles, queries := [] }
      (ascii "john@example.com") (by decide) (by decide)).1,
    by decide, by decide⟩

/-- C10 (as amended). Domain extraction: `domainCheck` returns false, with the state
unchanged, on a string without `@`; otherwise the domain it looks up in the cache and, on a
miss, passes to the lookup is the text between the first `@` and the next `@` (or the end
of the string): `strings.Split(email, "@")[1]`. -/
theorem domainCheck_domain_extraction (env : Env) (st : State) :
    (∀ email : Bytes, 64 ∉ email → domainCheck env st email = (false, st)) ∧
    (∀ pre mid rest : Bytes, 64 ∉ pre → 64 ∉ mid → (rest = [] ∨ rest.head? = some 64) →
      domainOf (pre ++ 64 :: mid ++ rest) = mid ∧
      (domainCheck env st (pre ++ 64 :: mid ++ rest)).1 =
        (checkDomainInFile st.domains mid || decide (0 < env.lookupNS mid)) ∧
      (domainCheck env st (pre ++ 64 :: mid ++ rest)).2.queries =
        if checkDomainInFile st.domains mid then st.queries else st.queries ++ [mid]) := by
  constructor
  · intro email h
    simp [domainCheck, h]
  · intro pre mid rest hpre hmid hr
    have hd := domainOf_eq pre mid rest hpre hmid hr
    have h1 : (pre ++ 64 :: mid ++ rest).contains 64 = true := by simp
    refine ⟨hd, ?_, ?_⟩
    · unfold domainCheck
      rw [hd, h1]
      by_cases hc : checkDomainInFile st.domains mid = true
      · simp [hc]
      · by_cases hl : 0 < env.lookupNS mid <;> simp [hc, hl]
    · unfold domainCheck
      rw [hd, h1]
      by_cases hc : checkDomainInFile st.domains mid = true
      · simp [hc]
      · by_cases hl : 0 < env.lookupNS mid <;> simp [hc, hl]

/-- C10, counterexample: on `a@b@c` with an empty cache the lookup is asked for `b`, not
for `b@c` (everything after the first `@`). -/
theorem domainCheck_two_ats_counterexample :
    (domainCheck (defaultEnv (resolving [])) freshState
        (ascii "a@b@c")).2.queries = [ascii "b"] ∧
      (ascii "a@b@c").drop 2 = ascii "b@c" ∧ ascii "b" ≠ ascii "b@c" := by
  decide

/-- C6 (as amended). Syntax boundary cases: `a@b.co` and the dotless `a@b` pass;
`a@@b.co`, `a@ b.co` and ` a@b.co` (leading space) fail. -/
theorem syntax_boundary_cases :
    syntaxCheck (ascii "a@b.co") = true ∧ syntaxCheck (ascii "a@b") = true ∧
      syntaxCheck (ascii "a@@b.co") = false ∧ syntaxCheck (ascii "a@ b.co") = false ∧
      syntaxCheck (ascii " a@b.co") = false := by
  decide

/-- C6, counterexample: `syntaxCheck` accepts `a@b`, which the claim says it rejects. -/
theorem syntaxCheck_accepts_dotless_domain : syntaxCheck (ascii "a@b") = true := by
  decide

/-! ## What the matcher recognises -/

theorem recognizes_cls (n : Nat) (p : Nat → Bool) :
    Recognizes (Re.run n (.cls p)) fun w => ∃ b, p b = true ∧ w = [b] := by
  intro s u
  cases s with
  | nil =>
    simp only [Re.run]
    constructor
    · intro h; simp at h
    · rintro ⟨w, ⟨c, _, rfl⟩, h⟩; simp at h
  | cons b t =>
    by_cases hp : p b = true
    · simp only [Re.run, hp, if_true, List.mem_singleton]
      constructor
      · intro h; exact ⟨[b], ⟨b, hp, rfl⟩, by simp [h]⟩
      · rintro ⟨w, ⟨c, _, rfl⟩, h⟩
        simp at h; exact h.2.symm
    · simp only [Re.run, hp]
      constructor
      · intro h; simp at h
      · rintro ⟨w, ⟨c, hc, rfl⟩, h⟩
        simp at h; rw [← h.1] at hc; exact absurd hc hp

theorem recognizes_seq (n : Nat) (a b : Re) (W1 W2 : Bytes → Prop)
    (ha : Recognizes (Re.run n a) W1) (hb : Recognizes (Re.run n b) W2) :
    Recognizes (Re.run n (.seq a b)) fun w => ∃ w1 w2, W1 w1 ∧ W2 w2 ∧ w = w1 ++ w2 := by
  intro s u
  simp only [Re.run, List.mem_flatMap]
  constructor
  · rintro ⟨t, ht, hu⟩
    obtain ⟨w1, h1, rfl⟩ := (ha s t).1 ht
    obtain ⟨w2, h2, rfl⟩ := (hb t u).1 hu
    exact ⟨w1 ++ w2, ⟨w1, w2, h1, h2, rfl⟩, by simp⟩
  · rintro ⟨w, ⟨w1, w2, h1, h2, rfl⟩, rfl⟩
    exact ⟨w2 ++ u, (ha _ _).2 ⟨w1, h1, by simp⟩, (hb _ _).2 ⟨w2, h2, rfl⟩⟩

theorem recognizes_opt (n : Nat) (a : Re) (W : Bytes → Prop) (ha : Recognizes (Re.run n a) W) :
    Recognizes (Re.run n (.opt a)) fun w => W w ∨ w = [] := by
  intro s u
  simp only [Re.run, List.mem_append, List.mem_singleton]
  constructor
  · rintro (h | h)
    · obtain ⟨w, hw, rfl⟩ := (ha s u).1 h
      exact ⟨w, Or.inl hw, rfl⟩
    · exact ⟨[], Or.inr rfl, by simp [h]⟩
  · rintro ⟨w, hw | rfl, rfl⟩
    · exact Or.inl ((ha _ _).2 ⟨w, hw, rfl⟩)
    · exact Or.inr (by simp)

theorem starRun_mem (f : Bytes → List Bytes) (W : Bytes → Prop) (hf : Recognizes f W)
    (hne : ∀ w, W w → w ≠ []) :
    ∀ (k : Nat) (s u : Bytes), s.length ≤ k →
      (u ∈ starRun f k s ↔ ∃ ws : List Bytes, (∀ w ∈ ws, W w) ∧ s = ws.flatten ++ u) := by
  intro k
  induction k with
  | zero =>
    intro s u hs
    have hs0 : s = [] := List.length_eq_zero.mp (Nat.le_zero.mp hs)
    subst hs0
    simp only [starRun, List.mem_singleton]
    constructor
    · intro h; exact ⟨[], by simp, by simp [h]⟩
    · rintro ⟨ws, _, h⟩
      have := congrArg List.length h
      simp at this
      exact List.length_eq_zero.mp (by omega)
  | succ k ih =>
    intro s u hs
    simp only [starRun, List.mem_append, List.mem_flatMap, List.mem_filter, List.mem_singleton,
      decide_eq_true_eq]
    constructor
    · rintro (⟨t, ⟨ht, hlt⟩, hu⟩ | h)
      · obtain ⟨w, hw, rfl⟩ := (hf s t).1 ht
        obtain ⟨ws, hws, rfl⟩ := (ih t u (by omega)).1 hu
        refine ⟨w :: ws, ?_, by simp⟩
        intro x hx
        rcases List.mem_cons.mp hx with rfl | hx
        · exact hw
        · exact hws x hx
      · exact ⟨[], by simp, by simp [h]⟩
    · rintro ⟨ws, hws, rfl⟩
      cases ws with
      | nil => right; simp
      | cons w ws =>
        left
        have hw : W w := hws w (by simp)
        have hwne : w ≠ [] := hne w hw
        have hwl : 0 < w.length := List.length_pos.mpr hwne
        refine ⟨ws.flatten ++ u, ⟨(hf _ _).2 ⟨w, hw, by simp⟩, ?_⟩, ?_⟩
        · simp; omega
        · refine (ih _ u ?_).2 ⟨ws, fun x hx => hws x (by simp [hx]), rfl⟩
          simp at hs ⊢; omega

theorem recognizes_star (n : Nat) (a : Re) (W : Bytes → Prop) (ha : Recognizes (Re.run n a) W)
    (hne : ∀ w, W w → w ≠ []) :
    Recognizes (Re.run n (.star a)) fun w => ∃ ws : List Bytes, (∀ x ∈ ws, W x) ∧ w = ws.flatten := by
  intro s u
  simp only [Re.run]
  rw [starRun_mem _ W ha hne s.length s u (le_refl _)]
  constructor
  · rintro ⟨ws, hws, rfl⟩; exact ⟨ws.flatten, ⟨ws, hws, rfl⟩, rfl⟩
  · rintro ⟨w, ⟨ws, hws, rfl⟩, rfl⟩; exact ⟨ws, hws, rfl⟩

theorem recognizes_plus (n : Nat) (a : Re) (W : Bytes → Prop) (ha : Recognizes (Re.run n a) W)
    (hne : ∀ w, W w → w ≠ []) :
    Recognizes (Re.run n (.plus a)) fun w =>
      ∃ (w1 : Bytes) (ws : List Bytes), W w1 ∧ (∀ x ∈ ws, W x) ∧ w = w1 ++ ws.flatten := by
  intro s u
  simp only [Re.run, List.mem_flatMap]
  constructor
  · rintro ⟨t, ht, hu⟩
    obtain ⟨w1, h1, rfl⟩ := (ha s t).1 ht
    obtain ⟨ws, hws, rfl⟩ := (starRun_mem _ W ha hne t.length t u (le_refl _)).1 hu
    exact ⟨w1 ++ ws.flatten, ⟨w1, ws, h1, hws, rfl⟩, by simp⟩
  · rintro ⟨w, ⟨w1, ws, h1, hws, rfl⟩, rfl⟩
    refine ⟨ws.flatten ++ u, (ha _ _).2 ⟨w1, h1, by simp⟩, ?_⟩
    exact (starRun_mem _ W ha hne _ _ u (le_refl _)).2 ⟨ws, hws, rfl⟩

theorem repRun_mem (f : Bytes → List Bytes) (W : Bytes → Prop) (hf : Recognizes f W) :
    ∀ (hi lo : Nat) (s u : Bytes),
      (u ∈ repRun f lo hi s ↔
        ∃ ws : List Bytes, lo ≤ ws.length ∧ ws.length ≤ hi ∧ (∀ w ∈ ws, W w) ∧
          s = ws.flatten ++ u) := by
  intro hi
  induction hi with
  | zero =>
    intro lo s u
    simp only [repRun]
    constructor
    · intro h
      by_cases hlo : lo = 0
      · simp [hlo] at h
        exact ⟨[], by simp [hlo], by simp, by simp, by simp [h]⟩
      · simp [hlo] at h
    · rintro ⟨ws, h1, h2, _, rfl⟩
      have hws : ws = [] := List.length_eq_zero.mp (Nat.le_zero.mp h2)
      subst hws
      have hlo : lo = 0 := by simpa using h1
      simp [hlo]
  | succ hi ih =>
    intro lo s u
    simp only [repRun, List.mem_append, List.mem_flatMap]
    constructor
    · rintro (⟨t, ht, hu⟩ | h)
      · obtain ⟨w, hw, rfl⟩ := (hf s t).1 ht
        obtain ⟨ws, h1, h2, hws, rfl⟩ := (ih (lo - 1) t u).1 hu
        refine ⟨w :: ws, by simp; omega, by simp; omega, ?_, by simp⟩
        intro x hx
        rcases List.mem_cons.mp hx with rfl | hx
        · exact hw
        · exact hws x hx
      · by_cases hlo : lo = 0
        · simp [hlo] at h
          exact ⟨[], by simp [hlo], by simp, by simp, by simp [h]⟩
        · simp [hlo] at h
    · rintro ⟨ws, h1, h2, hws, rfl⟩
      cases ws with
      | nil =>
        right
        have hlo : lo = 0 := by simpa using h1
        simp [hlo]
      | cons w ws =>
        left
        refine ⟨ws.flatten ++ u, (hf _ _).2 ⟨w, hws w (by simp), by simp⟩, ?_⟩
        refine (ih (lo - 1) _ u).2 ⟨ws, ?_, ?_, fun x hx => hws x (by simp [hx]), rfl⟩
        · simp at h1; omega
        · simp at h2; omega

theorem recognizes_rep (n : Nat) (a : Re) (lo hi : Nat) (W : Bytes → Prop)
    (ha : Recognizes (Re.run n a) W) :
    Recognizes (Re.run n (.rep a lo hi)) fun w =>
      ∃ ws : List Bytes, lo ≤ ws.length ∧ ws.length ≤ hi ∧ (∀ x ∈ ws, W x) ∧ w = ws.flatten := by
  intro s u
  simp only [Re.run]
  rw [repRun_mem _ W ha hi lo s u]
  constructor
  · rintro ⟨ws, h1, h2, hws, rfl⟩; exact ⟨ws.flatten, ⟨ws, h1, h2, hws, rfl⟩, rfl⟩
  · rintro ⟨w, ⟨ws, h1, h2, hws, rfl⟩, rfl⟩; exact ⟨ws, h1, h2, hws, rfl⟩

theorem recognizes_congr (f : Bytes → List Bytes) (W1 W2 : Bytes → Prop)
    (h : Recognizes f W1) (e : ∀ w, W1 w ↔ W2 w) : Recognizes f W2 := by
  intro s u
  rw [h s u]
  constructor
  · rintro ⟨w, hw, rfl⟩; exact ⟨w, (e w).1 hw, rfl⟩
  · rintro ⟨w, hw, rfl⟩; exact ⟨w, (e w).2 hw, rfl⟩

/-- A list of one-byte words of a class is the same as a word over the class. -/
theorem singletons_flatten (p : Nat → Bool) (ws : List Bytes)
    (h : ∀ x ∈ ws, ∃ b, p b = true ∧ x = [b]) :
    ws.flatten.length = ws.length ∧ ∀ b ∈ ws.flatten, p b = true := by
  induction ws with
  | nil => simp
  | cons x ws ih =>
    obtain ⟨b, hb, rfl⟩ := h x (by simp)
    have := ih (fun y hy => h y (by simp [hy]))
    refine ⟨by simp [this.1], ?_⟩
    intro c hc
    simp only [List.flatten_cons, List.singleton_append, List.mem_cons] at hc
    rcases hc with rfl | hc
    · exact hb
    · exact this.2 c hc

theorem flatten_singletons (w : Bytes) : (w.map fun b => [b]).flatten = w := by
  induction w with
  | nil => rfl
  | cons b w ih => simp [ih]

theorem recognizes_plus_cls (n : Nat) (p : Nat → Bool) :
    Recognizes (Re.run n (.plus (.cls p))) fun w => w ≠ [] ∧ ∀ b ∈ w, p b = true := by
  refine recognizes_congr _ _ _
    (recognizes_plus n (.cls p) _ (recognizes_cls n p) ?_) ?_
  · rintro w ⟨b, _, rfl⟩; simp
  · intro w
    constructor
    · rintro ⟨w1, ws, ⟨b, hb, rfl⟩, hws, rfl⟩
      refine ⟨by simp, ?_⟩
      intro c hc
      simp only [List.singleton_append, List.mem_cons] at hc
      rcases hc with rfl | hc
      · exact hb
      · exact (singletons_flatten p ws hws).2 c hc
    · rintro ⟨hne, hall⟩
      cases w with
      | nil => exact absurd rfl hne
      | cons b w =>
        refine ⟨[b], w.map fun c => [c], ⟨b, hall b (by simp), rfl⟩, ?_, by simp [flatten_singletons]⟩
        intro x hx
        obtain ⟨c, hc, rfl⟩ := List.mem_map.mp hx
        exact ⟨c, hall c (by simp [hc]), rfl⟩

theorem recognizes_rep_cls (n : Nat) (p : Nat → Bool) (lo hi : Nat) :
    Recognizes (Re.run n (.rep (.cls p) lo hi)) fun w =>
      lo ≤ w.length ∧ w.length ≤ hi ∧ ∀ b ∈ w, p b = true := by
  refine recognizes_congr _ _ _ (recognizes_rep n (.cls p) lo hi _ (recognizes_cls n p)) ?_
  intro w
  constructor
  · rintro ⟨ws, h1, h2, hws, rfl⟩
    have := singletons_flatten p ws hws
    exact ⟨by omega, by omega, this.2⟩
  · rintro ⟨h1, h2, hall⟩
    refine ⟨w.map fun c => [c], by simpa using h1, by simpa using h2, ?_, by simp [flatten_singletons]⟩
    intro x hx
    obtain ⟨c, hc, rfl⟩ := List.mem_map.mp hx
    exact ⟨c, hall c hc, rfl⟩

theorem isLabelChar_iff (b : Nat) : isLabelChar b = true ↔ (isAlnum b = true ∨ b = 45) := by
  simp [isLabelChar]

theorem spec_alphabet_bound :
    ∀ b ∈ specLetters ++ specDigits ++ specLocalSymbols, b < 128 := by
  decide

theorem isAlnum_iff_spec (b : Nat) :
    isAlnum b = true ↔ (b ∈ specLetters ∨ b ∈ specDigits) := by
  by_cases hb : b < 128
  · have key : ∀ c < 128, (isAlnum c = true ↔ (c ∈ specLetters ∨ c ∈ specDigits)) := by decide
    exact key b hb
  · constructor
    · intro h
      simp only [isAlnum, Bool.or_eq_true, Bool.and_eq_true, decide_eq_true_eq] at h
      omega
    · intro h
      have := spec_alphabet_bound b (by
        simp only [List.mem_append]
        rcases h with h | h
        · exact Or.inl (Or.inl h)
        · exact Or.inl (Or.inr h))
      omega

theorem isLocalChar_iff_spec (b : Nat) :
    isLocalChar b = true ↔ (b ∈ specLetters ∨ b ∈ specDigits ∨ b ∈ specLocalSymbols) := by
  by_cases hb : b < 128
  · have key : ∀ c < 128,
        (isLocalChar c = true ↔ (c ∈ specLetters ∨ c ∈ specDigits ∨ c ∈ specLocalSymbols)) := by
      decide
    exact key b hb
  · constructor
    · intro h
      simp only [isLocalChar, isAlnum, Bool.or_eq_true, Bool.and_eq_true, decide_eq_true_eq,
        List.contains_eq_any_beq, List.any_eq_true, beq_iff_eq] at h
      rcases h with h | ⟨x, hx, rfl⟩
      · omega
      · simp at hx; omega
    · intro h
      have := spec_alphabet_bound b (by
        simp only [List.mem_append]
        rcases h with h | h | h
        · exact Or.inl (Or.inl h)
        · exact Or.inl (Or.inr h)
        · exact Or.inr h)
      omega

theorem isLabel_iff (l : Bytes) :
    IsLabel l ↔
      (1 ≤ l.length ∧ l.length ≤ 63 ∧ (∀ b ∈ l, isAlnum b = true ∨ b = 45) ∧
        l.head? ≠ some 45 ∧ l.getLast? ≠ some 45) := by
  unfold IsLabel
  have e : ∀ b, (b ∈ specLetters ∨ b ∈ specDigits ∨ b = 45) ↔ (isAlnum b = true ∨ b = 45) := by
    intro b; rw [isAlnum_iff_spec, or_assoc]
  simp only [e]

theorem isAlnum_ne_hyphen (b : Nat) (h : isAlnum b = true) : b ≠ 45 := by
  rintro rfl
  exact absurd h (by decide)

/-- The label pattern recognises exactly the labels of the specification. -/
theorem recognizes_label (n : Nat) : Recognizes (Re.run n labelRe) IsLabel := by
  unfold labelRe
  refine recognizes_congr _ _ _
    (recognizes_seq n _ _ _ _ (recognizes_cls n isAlnum)
      (recognizes_opt n _ _
        (recognizes_seq n _ _ _ _ (recognizes_rep_cls n isLabelChar 0 61)
          (recognizes_cls n isAlnum)))) ?_
  intro w
  rw [isLabel_iff]
  constructor
  · rintro ⟨w1, w2, ⟨a, ha, rfl⟩, h2, rfl⟩
    rcases h2 with ⟨m, z', ⟨_, hm, hall⟩, ⟨z, hz, rfl⟩, rfl⟩ | rfl
    · refine ⟨by simp, by simp; omega, ?_, ?_, ?_⟩
      · intro b hb
        simp only [List.singleton_append, List.mem_cons, List.mem_append,
          List.mem_singleton, List.not_mem_nil, or_false] at hb
        rcases hb with rfl | hb | rfl
        · exact Or.inl ha
        · exact (isLabelChar_iff b).1 (hall b hb)
        · exact Or.inl hz
      · simp; exact isAlnum_ne_hyphen a ha
      · have : ([a] ++ (m ++ [z])).getLast? = some z := by
          rw [← List.append_assoc]; exact List.getLast?_concat _
        rw [this]; simp; exact isAlnum_ne_hyphen z hz
    · refine ⟨by simp, by simp, ?_, ?_, ?_⟩
      · intro b hb; simp at hb; subst hb; exact Or.inl ha
      · simp; exact isAlnum_ne_hyphen a ha
      · simp; exact isAlnum_ne_hyphen a ha
  · rintro ⟨h1, h2, hall, hhead, hlast⟩
    cases w with
    | nil => simp at h1
    | cons a r =>
      have ha : isAlnum a = true := by
        rcases hall a (by simp) with h | h
        · exact h
        · subst h; simp at hhead
      rcases List.eq_nil_or_concat r with rfl | ⟨m, z, rfl⟩
      · exact ⟨[a], [], ⟨a, ha, rfl⟩, Or.inr rfl, rfl⟩
      · have hz : isAlnum z = true := by
          rcases hall z (by simp) with h | h
          · exact h
          · subst h
            have : (a :: m.concat 45).getLast? = some 45 := by
              rw [List.concat_eq_append, ← List.cons_append]; exact List.getLast?_concat _
            exact absurd this hlast
        refine ⟨[a], m ++ [z], ⟨a, ha, rfl⟩, Or.inl ⟨m, [z], ⟨by simp, ?_, ?_⟩, ⟨z, hz, rfl⟩, rfl⟩,
          by simp⟩
        · simp at h2; omega
        · intro b hb
          exact (isLabelChar_iff b).2 (hall b (by simp [hb]))

theorem intercalate_cons (sep : Bytes) (l0 : Bytes) (ls : List Bytes) :
    sep.intercalate (l0 :: ls) = l0 ++ ls.flatMap fun l => sep ++ l := by
  induction ls generalizing l0 with
  | nil => simp [List.intercalate]
  | cons l ls ih =>
    have h := ih l
    simp only [List.intercalate, List.intersperse, List.flatten_cons, List.flatMap_cons] at h ⊢
    rw [h]
    simp

/-- The words the tail `(?:\.label)*` of the syntax pattern recognises. -/
theorem recognizes_dotLabels (n : Nat) :
    Recognizes (Re.run n (.star (.seq (.cls (· == 46)) labelRe))) fun w =>
      ∃ ls : List Bytes, (∀ l ∈ ls, IsLabel l) ∧ w = ls.flatMap fun l => [46] ++ l := by
  refine recognizes_congr _ _ _
    (recognizes_star n _ _
      (recognizes_seq n _ _ _ _ (recognizes_cls n (· == 46)) (recognizes_label n)) ?_) ?_
  · rintro w ⟨w1, w2, ⟨b, _, rfl⟩, _, rfl⟩; simp
  · intro w
    constructor
    · rintro ⟨ws, hws, rfl⟩
      clear n
      induction ws with
      | nil => exact ⟨[], by simp, by simp⟩
      | cons x ws ih =>
        obtain ⟨ls, hls, e⟩ := ih (fun y hy => hws y (by simp [hy]))
        obtain ⟨w1, w2, ⟨b, hb, rfl⟩, h2, rfl⟩ := hws x (by simp)
        have hb46 : b = 46 := by simpa using hb
        subst hb46
        refine ⟨w2 :: ls, ?_, by simp [e]⟩
        intro l hl
        rcases List.mem_cons.mp hl with rfl | hl
        · exact h2
        · exact hls l hl
    · rintro ⟨ls, hls, rfl⟩
      refine ⟨ls.map fun l => [46] ++ l, ?_, ?_⟩
      · intro x hx
        obtain ⟨l, hl, rfl⟩ := List.mem_map.mp hx
        exact ⟨[46], l, ⟨46, by simp, rfl⟩, hls l hl, rfl⟩
      · clear hls
        induction ls with
        | nil => simp
        | cons l ls ih => simp only [List.flatMap_cons, List.map_cons, List.flatten_cons, ih]

theorem run_seq_eot (n : Nat) (a : Re) (W : Bytes → Prop) (ha : Recognizes (Re.run n a) W)
    (s u : Bytes) : u ∈ Re.run n (.seq a .eot) s ↔ u = [] ∧ W s := by
  simp only [Re.run, List.mem_flatMap]
  constructor
  · rintro ⟨t, ht, hu⟩
    by_cases h : t = []
    · subst h
      simp at hu
      obtain ⟨w, hw, e⟩ := (ha s []).1 ht
      simp at e; subst e
      exact ⟨hu, hw⟩
    · simp [h] at hu
  · rintro ⟨rfl, hw⟩
    exact ⟨[], (ha s []).2 ⟨s, hw, by simp⟩, by simp⟩

theorem matchString_bot (a : Re) (s : Bytes) :
    matchString (.seq .bot a) s = true ↔ Re.run s.length a s ≠ [] := by
  simp only [matchString, List.any_eq_true, Bool.not_eq_true', List.mem_tails]
  constructor
  · rintro ⟨t, ht, h⟩
    by_cases hl : t.length = s.length
    · have : t = s := List.IsSuffix.eq_of_length ht hl
      subst this
      simp [Re.run] at h
      simpa using h
    · simp [Re.run, hl] at h
  · intro h
    refine ⟨s, List.suffix_refl s, ?_⟩
    simp [Re.run]
    simpa using h

theorem run_seq_mem (n : Nat) (a b : Re) (s u : Bytes) :
    u ∈ Re.run n (.seq a b) s ↔ ∃ t, t ∈ Re.run n a s ∧ u ∈ Re.run n b t := by
  simp only [Re.run, List.mem_flatMap]

/-- The shape of the strings `syntaxCheck` accepts. -/
theorem syntaxCheck_iff_form (s : Bytes) :
    syntaxCheck s = true ↔
      ∃ (L l0 : Bytes) (ls : List Bytes), L ≠ [] ∧ (∀ b ∈ L, isLocalChar b = true) ∧
        IsLabel l0 ∧ (∀ l ∈ ls, IsLabel l) ∧
        s = L ++ 64 :: (l0 ++ ls.flatMap fun l => [46] ++ l) := by
  unfold syntaxCheck syntaxRegexp
  rw [matchString_bot]
  constructor
  · intro h
    obtain ⟨u, hu⟩ := List.exists_mem_of_ne_nil _ h
    obtain ⟨t1, h1, hu⟩ := (run_seq_mem _ _ _ _ _).1 hu
    obtain ⟨t2, h2, hu⟩ := (run_seq_mem _ _ _ _ _).1 hu
    obtain ⟨t3, h3, hu⟩ := (run_seq_mem _ _ _ _ _).1 hu
    obtain ⟨L, ⟨hL, hLall⟩, rfl⟩ := (recognizes_plus_cls _ isLocalChar _ _).1 h1
    obtain ⟨w, ⟨b, hb, rfl⟩, rfl⟩ := (recognizes_cls _ (· == 64) _ _).1 h2
    obtain ⟨l0, hl0, rfl⟩ := (recognizes_label _ _ _).1 h3
    obtain ⟨_, ls, hls, rfl⟩ := (run_seq_eot _ _ _ (recognizes_dotLabels _) _ _).1 hu
    have hb64 : b = 64 := by simpa using hb
    subst hb64
    exact ⟨L, l0, ls, hL, hLall, hl0, hls, by simp⟩
  · rintro ⟨L, l0, ls, hL, hLall, hl0, hls, rfl⟩
    apply List.ne_nil_of_mem (a := [])
    refine (run_seq_mem _ _ _ _ _).2 ⟨64 :: (l0 ++ ls.flatMap fun l => [46] ++ l),
      (recognizes_plus_cls _ isLocalChar _ _).2 ⟨L, ⟨hL, hLall⟩, rfl⟩, ?_⟩
    refine (run_seq_mem _ _ _ _ _).2 ⟨l0 ++ ls.flatMap fun l => [46] ++ l,
      (recognizes_cls _ (· == 64) _ _).2 ⟨[64], ⟨64, by simp, rfl⟩, rfl⟩, ?_⟩
    refine (run_seq_mem _ _ _ _ _).2 ⟨ls.flatMap fun l => [46] ++ l,
      (recognizes_label _ _ _).2 ⟨l0, hl0, rfl⟩, ?_⟩
    exact (run_seq_eot _ _ _ (recognizes_dotLabels _) _ _).2 ⟨rfl, ls, hls, rfl⟩

theorem at_not_mem_label (l : Bytes) (h : IsLabel l) : 64 ∉ l := by
  intro hm
  rcases ((isLabel_iff l).1 h).2.2.1 64 hm with h1 | h1
  · exact absurd h1 (by decide)
  · exact absurd h1 (by decide)

/-- C7. Grammar of `syntaxCheck`: it accepts `s` exactly when the whole of `s` is a non-empty
local part over the local character class, one `@`, and one or more labels separated by
single dots, each label 1 to 63 letters, digits or hyphens with no hyphen first or last;
an accepted string contains exactly one `@`. -/
theorem syntaxCheck_iff_grammar (s : Bytes) :
    (syntaxCheck s = true ↔ SpecEmail s) ∧ (syntaxCheck s = true → s.count 64 = 1) := by
  constructor
  · rw [syntaxCheck_iff_form]
    unfold SpecEmail
    constructor
    · rintro ⟨L, l0, ls, hL, hLall, hl0, hls, rfl⟩
      exact ⟨L, l0, ls, hL, fun b hb => (isLocalChar_iff_spec b).1 (hLall b hb), hl0, hls,
        by rw [intercalate_cons]; simp⟩
    · rintro ⟨L, l0, ls, hL, hLall, hl0, hls, rfl⟩
      exact ⟨L, l0, ls, hL, fun b hb => (isLocalChar_iff_spec b).2 (hLall b hb), hl0, hls,
        by rw [intercalate_cons]; simp⟩
  · intro h
    obtain ⟨L, l0, ls, _, hLall, hl0, hls, rfl⟩ := (syntaxCheck_iff_form s).1 h
    have hL : 64 ∉ L := fun hm => absurd (hLall 64 hm) (by decide)
    have h0 : 64 ∉ l0 := at_not_mem_label l0 hl0
    have hr : 64 ∉ ls.flatMap fun l => [46] ++ l := by
      intro hm
      obtain ⟨l, hl, hm⟩ := List.mem_flatMap.mp hm
      simp only [List.singleton_append, List.mem_cons] at hm
      rcases hm with hm | hm
      · exact absurd hm (by decide)
      · exact at_not_mem_label l (hls l hl) hm
    rw [List.count_append, List.count_cons, List.count_append,
      List.count_eq_zero_of_not_mem hL, List.count_eq_zero_of_not_mem h0,
      List.count_eq_zero_of_not_mem hr]
    simp

/-! ## One candidate, one line -/

theorem processEmail_seen (env : Env) (st : State) (e : Bytes) (h : e ∈ st.emails) :
    processEmail env st e = st := by
  simp [processEmail, isUnique, h]

theorem processEmail_accept (env : Env) (st : State) (e : Bytes) (hu : e ∉ st.emails)
    (hat : 64 ∈ e) (hmiss : domainOf e ∉ st.domains) (hl : 0 < env.lookupNS (domainOf e))
    (hs : syntaxCheck e = true) :
    processEmail env st e =
      { emails := e :: st.emails
        domains := domainOf e :: st.domains
        files :=
          { output := st.files.output ++ (encodeEmailField e ++ [10])
            domainsFile := st.files.domainsFile ++ (domainOf e ++ [10])
            persistent := st.files.persistent }
        queries := st.queries ++ [domainOf e] } := by
  have h2 : checkDomainInFile st.domains (domainOf e) = false := by
    simpa [checkDomainInFile] using hmiss
  simp [processEmail, isUnique, hu, validateEmail, domainCheck, hat, h2, hl, hs,
    saveDomainInFile, saveEmailInFile]

theorem processEmail_unresolved (env : Env) (st : State) (e : Bytes) (hu : e ∉ st.emails)
    (hat : 64 ∈ e) (hmiss : domainOf e ∉ st.domains) (hl : env.lookupNS (domainOf e) = 0) :
    processEmail env st e = { st with queries := st.queries ++ [domainOf e] } := by
  have h2 : checkDomainInFile st.domains (domainOf e) = false := by
    simpa [checkDomainInFile] using hmiss
  simp [processEmail, isUnique, hu, validateEmail, domainCheck, hat, h2, hl]

theorem scenario_candidates (env : Env) (h : env.findCommonRegexp = defaultFindRegexp) :
    Find env scenarioLine = [ascii "john@example.com", ascii "spam@bad-nx-domain.inva"] := by
  unfold Find
  rw [h]
  decide

theorem startup_noFiles (env : Env) : startup env noFiles = (0, freshState) := by
  rfl

/-- C5 (as amended). Scenario: from no files, with the default pattern, the single line
`contact us at john@example.com or spam@bad-nx-domain.invalid` yields the candidates
`john@example.com` and `spam@bad-nx-domain.inva` (the final label is cut to 4 characters).
For every lookup under which `example.com` has a name server and `bad-nx-domain.inva` has
none, the output log becomes the one record `{"Email":"john@example.com"}`, the domains
log becomes `example.com`, and the checkpoint becomes `len(line)+1 = 61`. -/
theorem scenario_single_line (lookupNS : Bytes → Nat) (unmarshal : Bytes → Bytes)
    (hgood : 0 < lookupNS (ascii "example.com"))
    (hbad : lookupNS (ascii "bad-nx-domain.inva") = 0) :
    Find { findCommonRegexp := defaultFindRegexp, lookupNS := lookupNS, unmarshal := unmarshal }
        scenarioLine = [ascii "john@example.com", ascii "spam@bad-nx-domain.inva"] ∧
    main { findCommonRegexp := defaultFindRegexp, lookupNS := lookupNS, unmarshal := unmarshal }
        (scenarioLine ++ [10]) noFiles =
      { output := encodeEmailField (ascii "john@example.com") ++ [10]
        domainsFile := ascii "example.com" ++ [10]
        persistent := ascii "61" } := by
  refine ⟨scenario_candidates _ rfl, ?_⟩
  have hlines : inputLines (scenarioLine ++ [10]) 0 = [scenarioLine] := by decide
  have hd1 : domainOf (ascii "john@example.com") = ascii "example.com" := by decide
  have hd2 : domainOf (ascii "spam@bad-nx-domain.inva") = ascii "bad-nx-domain.inva" := by decide
  unfold main
  rw [startup_noFiles]
  simp only [hlines, List.foldl_cons, List.foldl_nil, processLine]
  rw [scenario_candidates _ rfl]
  simp only [List.foldl_cons, List.foldl_nil]
  rw [processEmail_accept _ freshState (ascii "john@example.com") (by decide) (by decide)
    (by decide) (by rw [hd1]; exact hgood) (by decide)]
  rw [processEmail_unresolved _ _ (ascii "spam@bad-nx-domain.inva") (by decide) (by decide)
    (by rw [hd1]; decide) (by rw [hd2]; exact hbad)]
  rw [hd1]
  decide

/-- C5 (as amended) at a concrete lookup: only `example.com` resolves. -/
theorem scenario_single_line_witness :
    main { findCommonRegexp := defaultFindRegexp, lookupNS := resolving [ascii "example.com"],
           unmarshal := unmarshalEmailField }
        (scenarioLine ++ [10]) noFiles =
      { output := encodeEmailField (ascii "john@example.com") ++ [10]
        domainsFile := ascii "example.com" ++ [10]
        persistent := ascii "61" } :=
  (scenario_single_line (resolving [ascii "example.com"]) unmarshalEmailField
    (by decide) (by decide)).2

/-- C5, counterexample: a lookup under which `example.com` resolves and
`bad-nx-domain.invalid` does not, yet the run writes two records and two domains, because
the candidate the pattern extracts is `spam@bad-nx-domain.inva`. -/
theorem scenario_truncated_domain_counterexample :
    0 < resolving [ascii "example.com", ascii "bad-nx-domain.inva"] (ascii "example.com") ∧
    resolving [ascii "example.com", ascii "bad-nx-domain.inva"]
      (ascii "bad-nx-domain.invalid") = 0 ∧
    main (defaultEnv (resolving [ascii "example.com", ascii "bad-nx-domain.inva"]))
        (scenarioLine ++ [10]) noFiles =
      { output := encodeEmailField (ascii "john@example.com") ++ [10] ++
          (encodeEmailField (ascii "spam@bad-nx-domain.inva") ++ [10])
        domainsFile := ascii "example.com" ++ [10] ++ (ascii "bad-nx-domain.inva" ++ [10])
        persistent := ascii "61" } := by
  decide

/-- C1, failing input: the one-byte input `a` (no final newline).  The loop reads the
line `a` and persists the checkpoint 2, which exceeds the file size 1. -/
theorem checkpoint_exceeds_size_without_final_newline :
    (ascii "a").length = 1 ∧
    (main (defaultEnv (resolving [])) (ascii "a") noFiles).persistent = ascii "2" ∧
    (mainSteps (defaultEnv (resolving [])) (ascii "a") noFiles 1).1 = 2 ∧
    loadCheckpoint (main (defaultEnv (resolving [])) (ascii "a") noFiles).persistent = 2 := by
  decide

/-- C4, failing input: the three-byte input `a\r\n`.  The first complete run persists the
checkpoint 2 (one byte short of the input consumed); the second run on the unchanged
input therefore reads one more (empty) line and moves the checkpoint to 3. -/
theorem rerun_moves_checkpoint_on_crlf :
    (main (defaultEnv (resolving [])) (ascii "a\r\n") noFiles).persistent = ascii "2" ∧
    (main (defaultEnv (resolving [])) (ascii "a\r\n")
      (main (defaultEnv (resolving [])) (ascii "a\r\n") noFiles)).persistent = ascii "3" := by
  decide

/-- The same defect changes the output log of a re-run: eight lines ending in `\r\n`
leave the checkpoint eight bytes short, and the second run reads `a@b.cc` out of the
tail of the line `xa@b.cc`. -/
theorem rerun_changes_output_on_crlf :
    (main (defaultEnv (resolving [ascii "b.cc"]))
      (ascii "\r\n\r\n\r\n\r\n\r\n\r\n\r\nxa@b.cc\r\n") noFiles).output =
        encodeEmailField (ascii "xa@b.cc") ++ [10] ∧
    (main (defaultEnv (resolving [ascii "b.cc"]))
      (ascii "\r\n\r\n\r\n\r\n\r\n\r\n\r\nxa@b.cc\r\n")
      (main (defaultEnv (resolving [ascii "b.cc"]))
        (ascii "\r\n\r\n\r\n\r\n\r\n\r\n\r\nxa@b.cc\r\n") noFiles)).output =
        encodeEmailField (ascii "xa@b.cc") ++ [10] ++ (encodeEmailField (ascii "a@b.cc") ++ [10]) := by
  decide

/-- C2, counterexample: the domains log initially holds `b.co` without a final newline,
only `d.ee` resolves, and the input is the two lines `y@d.ee`, `x@b.co`.  The
uninterrupted run accepts both addresses; a run stopped after the first line and resumed
re-reads the domains log as the single entry `b.cod.ee` and rejects `x@b.co`. -/
theorem resume_differs_on_unterminated_domains_log :
    (main (defaultEnv (resolving [ascii "d.ee"])) (ascii "y@d.ee\nx@b.co\n")
      { output := [], domainsFile := ascii "b.co", persistent := [] }).output =
        encodeEmailField (ascii "y@d.ee") ++ [10] ++ (encodeEmailField (ascii "x@b.co") ++ [10]) ∧
    (main (defaultEnv (resolving [ascii "d.ee"])) (ascii "y@d.ee\nx@b.co\n")
      (mainSteps (defaultEnv (resolving [ascii "d.ee"])) (ascii "y@d.ee\nx@b.co\n")
        { output := [], domainsFile := ascii "b.co", persistent := [] } 1).2.files).output =
        encodeEmailField (ascii "y@d.ee") ++ [10] := by
  decide

/-! ## The line reader -/

theorem readSlice_length (room : Nat) (s : Bytes) :
    s.length = (readSlice room s).1.length + (readSlice room s).2.1.length +
      (if (readSlice room s).2.2 = .delim then 1 else 0) := by
  induction s generalizing room with
  | nil => cases room <;> simp [readSlice]
  | cons b s ih =>
    cases room with
    | zero => simp [readSlice]
    | succ room =>
      by_cases hb : b = 10
      · simp [readSlice, hb]
      · simp only [readSlice, hb, if_false, List.length_cons]
        have := ih room
        omega

theorem readSlice_full (room : Nat) (s : Bytes) (h : (readSlice room s).2.2 = .full) :
    (readSlice room s).1.length = room ∧ s = (readSlice room s).1 ++ (readSlice room s).2.1 := by
  induction s generalizing room with
  | nil => cases room <;> simp [readSlice] at h ⊢
  | cons b s ih =>
    cases room with
    | zero => simp [readSlice]
    | succ room =>
      by_cases hb : b = 10
      · simp [readSlice, hb] at h
      · simp only [readSlice, hb, if_false] at h ⊢
        have := ih room h
        exact ⟨by simp [this.1], by simp [← this.2]⟩

theorem readSlice_eof (room : Nat) (s : Bytes) (h : (readSlice room s).2.2 = .eof) :
    (readSlice room s).2.1 = [] ∧ 10 ∉ s := by
  induction s generalizing room with
  | nil => cases room <;> simp [readSlice] at h ⊢
  | cons b s ih =>
    cases room with
    | zero => simp [readSlice] at h
    | succ room =>
      by_cases hb : b = 10
      · simp [readSlice, hb] at h
      · simp only [readSlice, hb, if_false] at h ⊢
        have := ih room h
        refine ⟨this.1, ?_⟩
        intro hm
        rcases List.mem_cons.mp hm with e | e
        · exact hb e.symm
        · exact this.2 e

theorem readSlice_line_no_newline (room : Nat) (s : Bytes) : 10 ∉ (readSlice room s).1 := by
  induction s generalizing room with
  | nil => cases room <;> simp [readSlice]
  | cons b s ih =>
    cases room with
    | zero => simp [readSlice]
    | succ room =>
      by_cases hb : b = 10
      · simp [readSlice, hb]
      · simp only [readSlice, hb, if_false]
        intro hm
        rcases List.mem_cons.mp hm with e | e
        · exact hb e.symm
        · exact ih room e

theorem readSlice_rest_suffix (room : Nat) (s : Bytes) : (readSlice room s).2.1 <:+ s := by
  induction s generalizing room with
  | nil => cases room <;> simp [readSlice]
  | cons b s ih =>
    cases room with
    | zero => simp [readSlice]
    | succ room =>
      by_cases hb : b = 10
      · simp [readSlice, hb]
      · simp only [readSlice, hb, if_false]
        exact List.IsSuffix.trans (ih room) (List.suffix_cons b s)

theorem readSlice_append (room : Nat) (a x : Bytes) (h : (readSlice room a).2.2 ≠ .eof) :
    readSlice room (a ++ x) =
      ((readSlice room a).1, (readSlice room a).2.1 ++ x, (readSlice room a).2.2) := by
  induction a generalizing room with
  | nil =>
    cases room with
    | zero => simp [readSlice]
    | succ room => simp [readSlice] at h
  | cons b a ih =>
    cases room with
    | zero => simp [readSlice]
    | succ room =>
      by_cases hb : b = 10
      · simp [readSlice, hb]
      · simp only [readSlice, hb, if_false, List.cons_append, List.append_eq] at h ⊢
        rw [ih room h]

theorem readSlice_clean (room : Nat) (l rest : Bytes) (hl : 10 ∉ l) (hlen : l.length < room) :
    readSlice room (l ++ 10 :: rest) = (l, rest, .delim) := by
  induction l generalizing room with
  | nil =>
    cases room with
    | zero => simp at hlen
    | succ room => simp [readSlice]
  | cons b l ih =>
    cases room with
    | zero => simp at hlen
    | succ room =>
      have hb : b ≠ 10 := fun e => hl (by simp [e])
      have hl2 : 10 ∉ l := fun e => hl (by simp [e])
      simp only [List.cons_append, readSlice, hb, if_false, List.append_eq]
      rw [ih room hl2 (by simpa using hlen)]

theorem readLine_clean (l rest : Bytes) (hl : 10 ∉ l) (hlen : l.length < defaultBufSize)
    (hcr : l.getLast? ≠ some 13) : readLine (l ++ 10 :: rest) = some (l, rest) := by
  have h := readSlice_clean defaultBufSize l rest hl hlen
  cases hs : l ++ 10 :: rest with
  | nil => simp at hs
  | cons c t =>
    rw [hs] at h
    simp only [readLine, h, hcr, if_false]

theorem readLine_eof (l : Bytes) (hne : l ≠ []) (hl : 10 ∉ l) (hlen : l.length < defaultBufSize) :
    readLine l = some (l, []) := by
  have key : ∀ (room : Nat) (l : Bytes), 10 ∉ l → l.length < room →
      readSlice room l = (l, [], .eof) := by
    intro room l
    induction l generalizing room with
    | nil => intro _ h; cases room with
      | zero => simp at h
      | succ room => simp [readSlice]
    | cons b l ih =>
      intro hl h
      cases room with
      | zero => simp at h
      | succ room =>
        have hb : b ≠ 10 := fun e => hl (by simp [e])
        have hl2 : 10 ∉ l := fun e => hl (by simp [e])
        simp only [readSlice, hb, if_false]
        rw [ih room hl2 (by simpa using h)]
  cases l with
  | nil => exact absurd rfl hne
  | cons c t =>
    simp only [readLine, key defaultBufSize (c :: t) hl hlen]

theorem readLine_rest_length (s l r : Bytes) (h : readLine s = some (l, r)) :
    r.length < s.length := by
  cases s with
  | nil => simp [readLine] at h
  | cons c t =>
    have hlen := readSlice_length defaultBufSize (c :: t)
    have hfull := readSlice_full defaultBufSize (c :: t)
    have heof := readSlice_eof defaultBufSize (c :: t)
    simp only [readLine] at h
    rcases hrs : readSlice defaultBufSize (c :: t) with ⟨l1, r1, e⟩
    rw [hrs] at h hlen hfull heof
    cases e with
    | delim =>
      simp only [Option.some.injEq, Prod.mk.injEq] at h
      simp only [if_true] at hlen
      rw [← h.2]; omega
    | full =>
      have hf := hfull rfl
      simp only at hf
      have h4 : l1.length = 4096 := hf.1
      have hlen2 : (c :: t).length = l1.length + r1.length := by simpa using hlen
      by_cases hcr : l1.getLast? = some 13
      · simp only [hcr, if_true, Option.some.injEq, Prod.mk.injEq] at h
        rw [← h.2, List.length_cons]; omega
      · simp only [hcr, if_false, Option.some.injEq, Prod.mk.injEq] at h
        rw [← h.2]; omega
    | eof =>
      have he := heof rfl
      simp only [Option.some.injEq, Prod.mk.injEq] at h
      simp only at he
      rw [← h.2, he.1]; simp

theorem readLinesAux_fuel (k : Nat) (s : Bytes) (h : s.length ≤ k) :
    readLinesAux k s = readLinesAux s.length s := by
  induction k using Nat.strong_induction_on generalizing s with
  | _ k ih =>
    cases k with
    | zero =>
      have : s.length = 0 := Nat.le_zero.mp h
      rw [this]
    | succ k =>
      cases hs : s.length with
      | zero =>
        have : s = [] := List.length_eq_zero.mp hs
        subst this
        simp [readLinesAux, readLine]
      | succ m =>
        simp only [readLinesAux]
        cases hr : readLine s with
        | none => rfl
        | some p =>
          obtain ⟨l, r⟩ := p
          have hlt := readLine_rest_length s l r hr
          simp only
          rw [ih k (Nat.lt_succ_self k) r (by omega), ih m (by omega) r (by omega)]

/-- The loop equation of `readLines`: the fuel never cuts the loop short. -/
theorem readLines_eq (s : Bytes) :
    readLines s =
      match readLine s with
      | none => []
      | some (l, r) => l :: readLines r := by
  unfold readLines
  cases hs : s.length with
  | zero =>
    have : s = [] := List.length_eq_zero.mp hs
    subst this
    simp [readLinesAux, readLine]
  | succ m =>
    simp only [readLinesAux]
    cases hr : readLine s with
    | none => rfl
    | some p =>
      obtain ⟨l, r⟩ := p
      have hlt := readLine_rest_length s l r hr
      simp only
      rw [readLinesAux_fuel m r (by omega)]

theorem readLines_nil : readLines [] = [] := rfl

theorem readLines_clean_cons (l rest : Bytes) (hl : 10 ∉ l) (hlen : l.length < defaultBufSize)
    (hcr : l.getLast? ≠ some 13) : readLines (l ++ 10 :: rest) = l :: readLines rest := by
  rw [readLines_eq, readLine_clean l rest hl hlen hcr]

theorem joinLines_cons (l : Bytes) (ls : List Bytes) :
    joinLines (l :: ls) = l ++ 10 :: joinLines ls := by
  simp [joinLines]

theorem joinLines_append (a b : List Bytes) : joinLines (a ++ b) = joinLines a ++ joinLines b := by
  simp [joinLines]

/-- Lines without newline, not ending in a carriage return and shorter than the buffer are
read back exactly. -/
theorem readLines_joinLines (ls : List Bytes) (tail : Bytes)
    (h : ∀ l ∈ ls, 10 ∉ l ∧ l.length < defaultBufSize ∧ l.getLast? ≠ some 13) :
    readLines (joinLines ls ++ tail) = ls ++ readLines tail := by
  induction ls with
  | nil => simp [joinLines]
  | cons l ls ih =>
    have hl := h l (by simp)
    rw [joinLines_cons, List.append_assoc, List.cons_append,
      readLines_clean_cons l _ hl.1 hl.2.1 hl.2.2, ih (fun x hx => h x (by simp [hx]))]
    simp

theorem getLast?_of_suffix (r a : Bytes) (z : Nat) (hs : r <:+ a) (ha : a.getLast? = some z)
    (hr : r ≠ []) : r.getLast? = some z := by
  obtain ⟨p, rfl⟩ := hs
  rw [List.getLast?_append] at ha
  cases hl : r.getLast? with
  | none => exact absurd (List.getLast?_eq_none_iff.mp hl) hr
  | some y => rw [hl] at ha; simpa using ha

theorem readLine_append (a x : Bytes) (h : a.getLast? = some 10) :
    ∃ line r, readLine a = some (line, r) ∧ readLine (a ++ x) = some (line, r ++ x) ∧
      (r = [] ∨ r.getLast? = some 10) := by
  have hmem : 10 ∈ a := List.mem_of_mem_getLast? (by rw [h]; rfl)
  have hne : (readSlice defaultBufSize a).2.2 ≠ .eof := fun e =>
    (readSlice_eof defaultBufSize a e).2 hmem
  have happ := readSlice_append defaultBufSize a x hne
  have hsuf := readSlice_rest_suffix defaultBufSize a
  have hfull := readSlice_full defaultBufSize a
  have hno := readSlice_line_no_newline defaultBufSize a
  cases a with
  | nil => simp at h
  | cons c t =>
    rcases hrs : readSlice defaultBufSize (c :: t) with ⟨l1, r1, e⟩
    rw [hrs] at happ hsuf hfull hno hne
    simp only at happ hsuf hfull hno hne
    have hr1 : r1 ≠ [] → r1.getLast? = some 10 := getLast?_of_suffix r1 (c :: t) 10 hsuf h
    have hr1' : r1 = [] ∨ r1.getLast? = some 10 := by
      by_cases e1 : r1 = []
      · exact Or.inl e1
      · exact Or.inr (hr1 e1)
    have hcons : (c :: t) ++ x = c :: (t ++ x) := rfl
    cases e with
    | delim =>
      refine ⟨if l1.getLast? = some 13 then l1.dropLast else l1, r1, ?_, ?_, hr1'⟩
      · simp only [readLine, hrs]
      · rw [hcons] at happ ⊢
        simp only [readLine, happ]
    | full =>
      have hf := hfull rfl
      have hr1ne : r1 ≠ [] := by
        intro e1
        rw [e1, List.append_nil] at hf
        rw [hf.2] at hmem
        exact hno hmem
      by_cases hcr : l1.getLast? = some 13
      · refine ⟨l1.dropLast, 13 :: r1, ?_, ?_, Or.inr ?_⟩
        · simp only [readLine, hrs, hcr, if_true]
        · rw [hcons] at happ ⊢
          simp only [readLine, happ, hcr, if_true, List.cons_append]
        · cases r1 with
          | nil => exact absurd rfl hr1ne
          | cons y ys => rw [List.getLast?_cons_cons]; exact hr1 hr1ne
      · refine ⟨l1, r1, ?_, ?_, hr1'⟩
        · simp only [readLine, hrs, hcr, if_false]
        · rw [hcons] at happ ⊢
          simp only [readLine, happ, hcr, if_false]
    | eof => exact absurd rfl hne

/-- Appending to a file that is empty or ends with a newline leaves the lines already in
it as they were. -/
theorem readLines_append (a x : Bytes) (h : a = [] ∨ a.getLast? = some 10) :
    readLines (a ++ x) = readLines a ++ readLines x := by
  generalize hn : a.length = n
  induction n using Nat.strong_induction_on generalizing a with
  | _ n ih =>
    rcases h with rfl | h
    · simp [readLines_nil]
    · obtain ⟨line, r, h1, h2, h3⟩ := readLine_append a x h
      have hlt := readLine_rest_length a line r h1
      rw [readLines_eq (a ++ x), h2, readLines_eq a, h1]
      simp only [List.cons_append, List.cons.injEq, true_and]
      exact ih r.length (by omega) r h3 rfl

/-! ## Integers and JSON -/

theorem parseDigits_concat (ds : Bytes) (d : Nat) :
    parseDigits (ds ++ [d]) =
      (parseDigits ds).bind fun n => if 48 ≤ d ∧ d ≤ 57 then some (n * 10 + (d - 48)) else none := by
  simp [parseDigits, List.foldl_append]

theorem natToDecAux_spec (f : Nat) :
    ∀ (n : Nat) (acc : Bytes), n < f →
      ∃ ds : Bytes, natToDecAux f n acc = ds ++ acc ∧ ds ≠ [] ∧ (∀ d ∈ ds, 48 ≤ d ∧ d ≤ 57) ∧
        parseDigits ds = some n ∧ ∀ k, 1 ≤ k → n < 10 ^ k → ds.length ≤ k := by
  induction f with
  | zero => intro n acc h; omega
  | succ f ih =>
    intro n acc h
    by_cases h10 : n < 10
    · refine ⟨[48 + n], by simp [natToDecAux, h10], by simp, ?_, ?_, ?_⟩
      · intro d hd; simp at hd; omega
      · simp [parseDigits]; omega
      · intro k hk _; simpa using hk
    · obtain ⟨ds, h1, h2, h3, h4, h5⟩ := ih (n / 10) ((48 + n % 10) :: acc) (by omega)
      refine ⟨ds ++ [48 + n % 10], by simp [natToDecAux, h10, h1], by simp, ?_, ?_, ?_⟩
      · intro d hd
        rcases List.mem_append.mp hd with hd | hd
        · exact h3 d hd
        · simp at hd; omega
      · rw [parseDigits_concat, h4]
        have : 48 ≤ 48 + n % 10 ∧ 48 + n % 10 ≤ 57 := by omega
        simp only [Option.some_bind, this, and_self, if_true, Option.some.injEq]
        omega
      · intro k hk hn
        cases k with
        | zero => omega
        | succ k =>
          have hk1 : 1 ≤ k := by
            rcases Nat.eq_zero_or_pos k with e | e
            · subst e; simp at hn; omega
            · exact e
          have : n / 10 < 10 ^ k := by
            rw [Nat.div_lt_iff_lt_mul (by norm_num)]
            rw [pow_succ] at hn; exact hn
          have := h5 k hk1 this
          simp; omega

theorem natToDec_spec (n : Nat) :
    natToDec n ≠ [] ∧ (∀ d ∈ natToDec n, 48 ≤ d ∧ d ≤ 57) ∧ parseDigits (natToDec n) = some n ∧
      ∀ k, 1 ≤ k → n < 10 ^ k → (natToDec n).length ≤ k := by
  obtain ⟨ds, h1, h2, h3, h4, h5⟩ := natToDecAux_spec (n + 1) n [] (Nat.lt_succ_self n)
  have : natToDec n = ds := by simpa [natToDec] using h1
  rw [this]
  exact ⟨h2, h3, h4, h5⟩

theorem atoi_natToDec (n : Nat) : atoi (natToDec n) = (n : Int) := by
  obtain ⟨h1, h2, h3, _⟩ := natToDec_spec n
  cases hs : natToDec n with
  | nil => exact absurd hs h1
  | cons d ds =>
    rw [hs] at h2 h3
    have hd := h2 d (by simp)
    unfold atoi
    split
    · rename_i e; simp at e
    · rename_i e; simp at e; omega
    · rename_i e; simp at e; omega
    · simp [h3]

/-- The checkpoint file written by the loop is read back as the number written, for every
offset a Go `int` can hold. -/
theorem loadCheckpoint_itoa (n : Nat) (h : n < 2 ^ 63) : loadCheckpoint (itoa (n : Int)) = (n : Int) := by
  obtain ⟨h1, h2, _, h4⟩ := natToDec_spec n
  have hlen : (natToDec n).length ≤ 19 :=
    h4 19 (by norm_num) (lt_of_lt_of_le h (by norm_num))
  have hno : 10 ∉ natToDec n := fun hm => by have := h2 10 hm; omega
  have hr : readLine (natToDec n) = some (natToDec n, []) :=
    readLine_eof _ h1 hno (by simp only [defaultBufSize]; omega)
  show loadCheckpoint (natToDec n) = _
  simp only [loadCheckpoint, hr, atoi_natToDec]

theorem hexVal_hexDigit (x : Nat) (h : x < 16) : hexVal (hexDigit x) = some x := by
  have key : ∀ y < 16, hexVal (hexDigit y) = some y := by decide
  exact key x h

theorem escapeByte_length (b : Nat) : 1 ≤ (escapeByte b).length ∧ (escapeByte b).length ≤ 6 := by
  unfold escapeByte
  split_ifs <;> simp

theorem escapeByte_no_newline (b : Nat) : 10 ∉ escapeByte b ∧ 13 ∉ escapeByte b := by
  unfold escapeByte hexDigit
  split_ifs <;> simp <;> omega

theorem escaped_length (e : Bytes) :
    e.length ≤ (e.flatMap escapeByte).length ∧ (e.flatMap escapeByte).length ≤ 6 * e.length := by
  induction e with
  | nil => simp
  | cons b e ih =>
    have := escapeByte_length b
    simp only [List.flatMap_cons, List.length_append, List.length_cons]
    omega

theorem unquote_step (b k : Nat) (tail e rest : Bytes) (h : unquote k tail = some (e, rest)) :
    unquote (k + 1) (escapeByte b ++ tail) = some (b :: e, rest) := by
  by_cases h1 : b = 34
  · have hb : escapeByte b = [92, 34] := by simp [escapeByte, h1]
    rw [hb, h1]; simp [unquote, h]
  by_cases h2 : b = 92
  · have hb : escapeByte b = [92, 92] := by simp [escapeByte, h2]
    rw [hb, h2]; simp [unquote, h]
  by_cases h3 : b = 10
  · have hb : escapeByte b = [92, 110] := by simp [escapeByte, h3]
    rw [hb, h3]; simp [unquote, h]
  by_cases h4 : b = 13
  · have hb : escapeByte b = [92, 114] := by simp [escapeByte, h4]
    rw [hb, h4]; simp [unquote, h]
  by_cases h5 : b = 9
  · have hb : escapeByte b = [92, 116] := by simp [escapeByte, h5]
    rw [hb, h5]; simp [unquote, h]
  by_cases h6 : b < 32 ∨ b = 60 ∨ b = 62 ∨ b = 38
  · have hb : escapeByte b = [92, 117, 48, 48, hexDigit (b / 16), hexDigit (b % 16)] := by
      simp [escapeByte, h1, h2, h3, h4, h5, h6]
    have hx := hexVal_hexDigit (b / 16) (by omega)
    have hy := hexVal_hexDigit (b % 16) (by omega)
    rw [hb]
    simp only [List.cons_append, List.nil_append, unquote]
    simp [hx, hy, h]
    omega
  · have hb : escapeByte b = [b] := by simp [escapeByte, h1, h2, h3, h4, h5, h6]
    rw [hb]
    simp [unquote, h1, h2, h]

theorem unquote_escaped (e : Bytes) :
    ∀ (k : Nat) (rest : Bytes), e.length < k →
      unquote k (e.flatMap escapeByte ++ 34 :: rest) = some (e, rest) := by
  induction e with
  | nil =>
    intro k rest hk
    cases k with
    | zero => omega
    | succ k => simp [unquote]
  | cons b e ih =>
    intro k rest hk
    cases k with
    | zero => omega
    | succ k =>
      have hih := ih k rest (by simpa using hk)
      rw [List.flatMap_cons, List.append_assoc]
      exact unquote_step b k _ e rest hih

theorem unmarshalEmailField_header (body : Bytes) :
    unmarshalEmailField (123 :: 34 :: 69 :: 109 :: 97 :: 105 :: 108 :: 34 :: 58 :: 34 :: body) =
      match unquote body.length body with
      | some (e, [125]) => e
      | _ => [] := rfl

/-- The stand-in decoder inverts the encoder on every string. -/
theorem unmarshal_encode (e : Bytes) : unmarshalEmailField (encodeEmailField e) = e := by
  have hlen := escaped_length e
  have h := unquote_escaped e (e.flatMap escapeByte ++ [34, 125]).length [125]
    (by rw [List.length_append]; simp only [List.length_cons, List.length_nil]; omega)
  have hform : encodeEmailField e =
      123 :: 34 :: 69 :: 109 :: 97 :: 105 :: 108 :: 34 :: 58 :: 34 ::
        (e.flatMap escapeByte ++ [34, 125]) := by
    simp [encodeEmailField]
  rw [hform, unmarshalEmailField_header, h]

theorem encodeEmailField_clean (e : Bytes) :
    10 ∉ encodeEmailField e ∧ (encodeEmailField e).getLast? ≠ some 13 ∧
      (encodeEmailField e).length ≤ 6 * e.length + 12 := by
  have hlen := escaped_length e
  refine ⟨?_, ?_, ?_⟩
  · intro hm
    simp only [encodeEmailField, List.mem_append, List.mem_flatMap] at hm
    rcases hm with (hm | ⟨b, _, hb⟩) | hm
    · simp at hm
    · exact (escapeByte_no_newline b).1 hb
    · simp at hm
  · have : encodeEmailField e =
        ([123, 34, 69, 109, 97, 105, 108, 34, 58, 34] ++ e.flatMap escapeByte ++ [34]) ++ [125] := by
      simp [encodeEmailField]
    rw [this, List.getLast?_concat]
    simp
  · simp only [encodeEmailField, List.length_append, List.length_cons, List.length_nil]
    omega

/-! ## The ways the loop body can end -/

theorem validateEmail_state (env : Env) (st : State) (e : Bytes) :
    (validateEmail env st e).2 = (domainCheck env st e).2 := by
  unfold validateEmail
  split
  · rfl
  · split <;> rfl

theorem validateEmail_true (env : Env) (st : State) (e : Bytes)
    (h : (validateEmail env st e).1 = true) :
    (domainCheck env st e).1 = true ∧ syntaxCheck e = true := by
  unfold validateEmail at h
  by_cases h1 : (domainCheck env st e).1 = true
  · by_cases h2 : syntaxCheck e = true
    · exact ⟨h1, h2⟩
    · simp [h1, h2] at h
  · simp [h1] at h

theorem validateEmail_eq (env : Env) (st : State) (e : Bytes) :
    (validateEmail env st e).1 = ((domainCheck env st e).1 && syntaxCheck e) := by
  unfold validateEmail
  by_cases h1 : (domainCheck env st e).1 = true
  · by_cases h2 : syntaxCheck e = true <;> simp [h1, h2]
  · simp [h1]

/-- The three ways the inner loop body can end. -/
theorem processEmail_cases (env : Env) (st : State) (e : Bytes) :
    (e ∈ st.emails ∧ processEmail env st e = st) ∨
    (e ∉ st.emails ∧ ((domainCheck env st e).1 && syntaxCheck e) = false ∧
      processEmail env st e = (domainCheck env st e).2) ∨
    (e ∉ st.emails ∧ (domainCheck env st e).1 = true ∧ syntaxCheck e = true ∧
      processEmail env st e =
        { (domainCheck env st e).2 with
          files := saveEmailInFile (domainCheck env st e).2.files e
          emails := e :: (domainCheck env st e).2.emails }) := by
  by_cases hu : e ∈ st.emails
  · exact Or.inl ⟨hu, processEmail_seen env st e hu⟩
  · right
    have hv := validateEmail_eq env st e
    have hs := validateEmail_state env st e
    by_cases hok : (validateEmail env st e).1 = true
    · right
      have := validateEmail_true env st e hok
      refine ⟨hu, this.1, this.2, ?_⟩
      simp [processEmail, isUnique, hu, hok, hs]
    · left
      refine ⟨hu, ?_, ?_⟩
      · rw [← hv]; simpa using hok
      · simp [processEmail, isUnique, hu, hok, hs]

/-! ## Reading the logs back -/

theorem mem_foldl_cons (f : Bytes → Bytes) (ls : List Bytes) (init : List Bytes) (x : Bytes) :
    x ∈ ls.foldl (fun m line => f line :: m) init ↔ x ∈ init ∨ ∃ l ∈ ls, f l = x := by
  induction ls generalizing init with
  | nil => simp
  | cons l ls ih =>
    simp only [List.foldl_cons, ih, List.mem_cons]
    constructor
    · rintro ((h | h) | ⟨y, hy, h⟩)
      · exact Or.inr ⟨l, Or.inl rfl, h.symm⟩
      · exact Or.inl h
      · exact Or.inr ⟨y, Or.inr hy, h⟩
    · rintro (h | ⟨y, hy | hy, h⟩)
      · exact Or.inl (Or.inr h)
      · subst hy; exact Or.inl (Or.inl h.symm)
      · exact Or.inr ⟨y, hy, h⟩

theorem mem_readEmails (env : Env) (init : List Bytes) (out x : Bytes) :
    x ∈ readEmails env init out ↔ x ∈ init ∨ ∃ l ∈ readLines out, env.unmarshal l = x :=
  mem_foldl_cons env.unmarshal (readLines out) init x

theorem mem_readDomains (init : List Bytes) (f x : Bytes) :
    x ∈ readDomains init f ↔ x ∈ init ∨ x ∈ readLines f := by
  unfold readDomains
  rw [mem_foldl_cons (fun l => l) (readLines f) init x]
  simp

theorem readLines_append_entry (f entry : Bytes) (hf : EndsNL f) (h1 : 10 ∉ entry)
    (h2 : entry.length < defaultBufSize) (h3 : entry.getLast? ≠ some 13) :
    readLines (f ++ (entry ++ [10])) = readLines f ++ [entry] := by
  rw [readLines_append f _ hf]
  have : entry ++ [10] = entry ++ 10 :: [] := rfl
  rw [this, readLines_clean_cons entry [] h1 h2 h3, readLines_nil]

theorem endsNL_append_entry (f entry : Bytes) : EndsNL (f ++ (entry ++ [10])) := by
  right
  rw [← List.append_assoc]
  exact List.getLast?_concat _

theorem getLast?_ne_of_not_mem (l : Bytes) (z : Nat) (h : z ∉ l) : l.getLast? ≠ some z := by
  intro e
  exact h (List.mem_of_mem_getLast? (by rw [e]; rfl))

/-! ## Candidates and domains are pieces of the line -/

theorem findAllFrom_sub (re : Re) (n : Nat) (s : Bytes) :
    ∀ (skip : Nat), ∀ e ∈ findAllFrom re n skip s, (∀ b ∈ e, b ∈ s) ∧ e.length ≤ s.length := by
  induction s with
  | nil => intro skip e he; cases skip <;> simp [findAllFrom] at he
  | cons b t ih =>
    have lift : ∀ skip, ∀ e ∈ findAllFrom re n skip t,
        (∀ c ∈ e, c ∈ b :: t) ∧ e.length ≤ (b :: t).length := by
      intro skip e he
      have := ih skip e he
      exact ⟨fun c hc => List.mem_cons_of_mem _ (this.1 c hc), by simp; omega⟩
    intro skip e he
    cases skip with
    | succ skip =>
      simp only [findAllFrom] at he
      exact lift skip e he
    | zero =>
      simp only [findAllFrom] at he
      cases hh : (Re.run n re (b :: t)).head? with
      | none =>
        rw [hh] at he
        exact lift 0 e he
      | some rest =>
        rw [hh] at he
        simp only at he
        by_cases hlt : rest.length < (b :: t).length
        · simp only [hlt, if_true, List.mem_cons] at he
          rcases he with rfl | he
          · exact ⟨fun c hc => List.mem_of_mem_take hc, by rw [List.length_take]; omega⟩
          · exact lift _ e he
        · simp only [hlt, if_false] at he
          exact lift 0 e he

theorem find_sub (env : Env) (line e : Bytes) (he : e ∈ Find env line) :
    (∀ b ∈ e, b ∈ line) ∧ e.length ≤ line.length :=
  findAllFrom_sub _ _ line 0 e he

theorem stringsSplit_sub (sep : Nat) (s : Bytes) :
    ∀ p ∈ stringsSplit sep s, (∀ b ∈ p, b ∈ s) ∧ p.length ≤ s.length := by
  induction s with
  | nil => intro p hp; simp [stringsSplit] at hp; subst hp; simp
  | cons c s ih =>
    intro p hp
    unfold stringsSplit at hp
    by_cases hc : c = sep
    · simp only [hc, if_true, List.mem_cons] at hp
      rcases hp with rfl | hp
      · simp
      · have := ih p hp
        exact ⟨fun b hb => List.mem_cons_of_mem _ (this.1 b hb), by simp; omega⟩
    · simp only [hc, if_false] at hp
      cases hs : stringsSplit sep s with
      | nil => exact absurd hs (stringsSplit_ne_nil sep s)
      | cons h t =>
        rw [hs] at hp ih
        simp only [List.mem_cons] at hp
        rcases hp with rfl | hp
        · have := ih h (by simp)
          refine ⟨?_, by simp; omega⟩
          intro b hb
          rcases List.mem_cons.mp hb with rfl | hb
          · simp
          · exact List.mem_cons_of_mem _ (this.1 b hb)
        · have := ih p (by simp [hp])
          exact ⟨fun b hb => List.mem_cons_of_mem _ (this.1 b hb), by simp; omega⟩

theorem domainOf_sub (e : Bytes) : (∀ b ∈ domainOf e, b ∈ e) ∧ (domainOf e).length ≤ e.length := by
  unfold domainOf
  cases hs : stringsSplit 64 e with
  | nil => simp
  | cons h t =>
    cases t with
    | nil => simp
    | cons d t2 =>
      have := stringsSplit_sub 64 e d (by rw [hs]; simp)
      simpa using this

theorem small_of_sub (l e : Bytes) (hl : Small l) (hsub : ∀ b ∈ e, b ∈ l)
    (hlen : e.length ≤ l.length) : Small e := by
  obtain ⟨h1, h2, h3⟩ := hl
  exact ⟨fun h => h1 (hsub _ h), fun h => h2 (hsub _ h), by omega⟩

/-! ## The maps stay in step with the logs -/

theorem domainCheck_cases (env : Env) (st : State) (e : Bytes) :
    (domainCheck env st e).2 = st ∨
    (domainCheck env st e).2 = { st with queries := st.queries ++ [domainOf e] } ∨
    (domainCheck env st e).2 =
      { st with
        files := saveDomainInFile st.files (domainOf e)
        domains := domainOf e :: st.domains
        queries := st.queries ++ [domainOf e] } := by
  unfold domainCheck
  split
  · exact Or.inl rfl
  · split
    · exact Or.inl rfl
    · split
      · exact Or.inr (Or.inr rfl)
      · exact Or.inr (Or.inl rfl)

theorem domainCheck_synced (env : Env) (st : State) (e : Bytes) (he : Small e)
    (h : Synced env st) : Synced env (domainCheck env st e).2 := by
  obtain ⟨h1, h2, h3, h4⟩ := h
  rcases domainCheck_cases env st e with hp | hp | hp
  · rw [hp]; exact ⟨h1, h2, h3, h4⟩
  · rw [hp]; exact ⟨h1, h2, h3, h4⟩
  · rw [hp]
    have hd := small_of_sub e (domainOf e) he (domainOf_sub e).1 (domainOf_sub e).2
    have hread := readLines_append_entry st.files.domainsFile (domainOf e) h4 hd.1
      (by have := hd.2.2; omega) (getLast?_ne_of_not_mem _ 13 hd.2.1)
    refine ⟨h1, ?_, h3, endsNL_append_entry _ _⟩
    intro x
    simp only [saveDomainInFile, List.mem_cons]
    rw [mem_readDomains, hread, h2 x, mem_readDomains]
    simp only [List.not_mem_nil, false_or, List.mem_append, List.mem_singleton]
    exact Or.comm

theorem processEmail_synced (env : Env)
    (hjson : ∀ e, syntaxCheck e = true → env.unmarshal (encodeEmailField e) = e)
    (st : State) (e : Bytes) (he : Small e) (h : Synced env st) :
    Synced env (processEmail env st e) := by
  have hD := domainCheck_synced env st e he h
  rcases processEmail_cases env st e with ⟨_, hp⟩ | ⟨_, _, hp⟩ | ⟨_, _, hs, hp⟩
  · rw [hp]; exact h
  · rw [hp]; exact hD
  · rw [hp]
    obtain ⟨h1, h2, h3, h4⟩ := hD
    have hc := encodeEmailField_clean e
    have hread := readLines_append_entry (domainCheck env st e).2.files.output
      (encodeEmailField e) h3 hc.1 (by have := he.2.2; have := hc.2.2; omega) hc.2.1
    refine ⟨?_, h2, endsNL_append_entry _ _, h4⟩
    intro x
    simp only [saveEmailInFile, List.mem_cons]
    rw [mem_readEmails, hread, h1 x, mem_readEmails]
    simp only [List.not_mem_nil, false_or, List.mem_append, List.mem_singleton]
    constructor
    · rintro (rfl | ⟨l, hl, hx⟩)
      · exact ⟨encodeEmailField x, Or.inr rfl, hjson x hs⟩
      · exact ⟨l, Or.inl hl, hx⟩
    · rintro ⟨l, hl | hl, hx⟩
      · exact Or.inr ⟨l, hl, hx⟩
      · subst hl; rw [hjson e hs] at hx; exact Or.inl hx.symm

theorem foldl_processEmail_synced (env : Env)
    (hjson : ∀ e, syntaxCheck e = true → env.unmarshal (encodeEmailField e) = e)
    (es : List Bytes) (st : State) (hes : ∀ e ∈ es, Small e) (h : Synced env st) :
    Synced env (es.foldl (processEmail env) st) := by
  induction es generalizing st with
  | nil => exact h
  | cons e es ih =>
    exact ih _ (fun x hx => hes x (by simp [hx]))
      (processEmail_synced env hjson st e (hes e (by simp)) h)

theorem processLine_synced (env : Env)
    (hjson : ∀ e, syntaxCheck e = true → env.unmarshal (encodeEmailField e) = e)
    (p : Int × State) (line : Bytes) (hl : Small line) (h : Synced env p.2) :
    Synced env (processLine env p line).2 := by
  have := foldl_processEmail_synced env hjson (Find env line) p.2
    (fun e he => small_of_sub line e hl (find_sub env line e he).1 (find_sub env line e he).2) h
  exact this

theorem foldl_processLine_synced (env : Env)
    (hjson : ∀ e, syntaxCheck e = true → env.unmarshal (encodeEmailField e) = e)
    (lines : List Bytes) (p : Int × State) (hl : ∀ l ∈ lines, Small l) (h : Synced env p.2) :
    Synced env (lines.foldl (processLine env) p).2 := by
  induction lines generalizing p with
  | nil => exact h
  | cons l ls ih =>
    exact ih _ (fun x hx => hl x (by simp [hx])) (processLine_synced env hjson p l (hl l (by simp)) h)

/-! ## The loop sees the maps only through membership -/

theorem domainCheck_no_at (env : Env) (st : State) (e : Bytes) (h : 64 ∉ e) :
    domainCheck env st e = (false, st) := by
  simp [domainCheck, h]

theorem domainCheck_hit (env : Env) (st : State) (e : Bytes) (hat : 64 ∈ e)
    (h : domainOf e ∈ st.domains) : domainCheck env st e = (true, st) := by
  have h2 : checkDomainInFile st.domains (domainOf e) = true := by
    simpa [checkDomainInFile] using h
  simp [domainCheck, hat, h2]

theorem domainCheck_resolved (env : Env) (st : State) (e : Bytes) (hat : 64 ∈ e)
    (h : domainOf e ∉ st.domains) (hl : 0 < env.lookupNS (domainOf e)) :
    domainCheck env st e =
      (true, { st with
        files := saveDomainInFile st.files (domainOf e)
        domains := domainOf e :: st.domains
        queries := st.queries ++ [domainOf e] }) := by
  have h2 : checkDomainInFile st.domains (domainOf e) = false := by
    simpa [checkDomainInFile] using h
  simp [domainCheck, hat, h2, hl]

theorem domainCheck_unresolved (env : Env) (st : State) (e : Bytes) (hat : 64 ∈ e)
    (h : domainOf e ∉ st.domains) (hl : ¬ 0 < env.lookupNS (domainOf e)) :
    domainCheck env st e = (false, { st with queries := st.queries ++ [domainOf e] }) := by
  have h2 : checkDomainInFile st.domains (domainOf e) = false := by
    simpa [checkDomainInFile] using h
  simp [domainCheck, hat, h2, hl]

theorem domainCheck_sameView (env : Env) (a b : State) (e : Bytes) (h : SameView a b) :
    (domainCheck env a e).1 = (domainCheck env b e).1 ∧
      SameView (domainCheck env a e).2 (domainCheck env b e).2 := by
  obtain ⟨h1, h2, h3⟩ := h
  by_cases hat : 64 ∈ e
  · by_cases hk : domainOf e ∈ a.domains
    · rw [domainCheck_hit env a e hat hk, domainCheck_hit env b e hat ((h3 _).1 hk)]
      exact ⟨rfl, h1, h2, h3⟩
    · have hkb : domainOf e ∉ b.domains := fun hb => hk ((h3 _).2 hb)
      by_cases hl : 0 < env.lookupNS (domainOf e)
      · rw [domainCheck_resolved env a e hat hk hl, domainCheck_resolved env b e hat hkb hl]
        refine ⟨rfl, by simp [h1], h2, ?_⟩
        intro x
        simp only [List.mem_cons]
        rw [h3 x]
      · rw [domainCheck_unresolved env a e hat hk hl, domainCheck_unresolved env b e hat hkb hl]
        exact ⟨rfl, h1, h2, h3⟩
  · rw [domainCheck_no_at env a e hat, domainCheck_no_at env b e hat]
    exact ⟨rfl, h1, h2, h3⟩

theorem processEmail_sameView (env : Env) (a b : State) (e : Bytes) (h : SameView a b) :
    SameView (processEmail env a e) (processEmail env b e) := by
  have hd := domainCheck_sameView env a b e h
  have hmem : e ∈ a.emails ↔ e ∈ b.emails := h.2.1 e
  rcases processEmail_cases env a e with ⟨ha, hpa⟩ | ⟨ha, hva, hpa⟩ | ⟨ha, hda, hsa, hpa⟩
  · rw [hpa, processEmail_seen env b e (hmem.1 ha)]; exact h
  · rcases processEmail_cases env b e with ⟨hb, _⟩ | ⟨_, _, hpb⟩ | ⟨_, hdb, hsb, _⟩
    · exact absurd (hmem.2 hb) ha
    · rw [hpa, hpb]; exact hd.2
    · rw [hd.1, hdb, hsb] at hva; simp at hva
  · rcases processEmail_cases env b e with ⟨hb, _⟩ | ⟨_, hvb, _⟩ | ⟨_, _, _, hpb⟩
    · exact absurd (hmem.2 hb) ha
    · rw [← hd.1, hda, hsa] at hvb; simp at hvb
    · rw [hpa, hpb]
      obtain ⟨g1, g2, g3⟩ := hd.2
      refine ⟨by simp [g1], ?_, g3⟩
      intro x
      simp only [List.mem_cons]
      rw [g2 x]

theorem foldl_processEmail_sameView (env : Env) (es : List Bytes) (a b : State)
    (h : SameView a b) : SameView (es.foldl (processEmail env) a) (es.foldl (processEmail env) b) := by
  induction es generalizing a b with
  | nil => exact h
  | cons e es ih => exact ih _ _ (processEmail_sameView env a b e h)

theorem processLine_sameView (env : Env) (p q : Int × State) (line : Bytes)
    (hc : p.1 = q.1) (h : SameView p.2 q.2) :
    (processLine env p line).1 = (processLine env q line).1 ∧
      SameView (processLine env p line).2 (processLine env q line).2 := by
  obtain ⟨g1, g2, g3⟩ := foldl_processEmail_sameView env (Find env line) p.2 q.2 h
  refine ⟨by simp [processLine, hc], ?_, g2, g3⟩
  simp [processLine, hc, g1]

theorem foldl_processLine_sameView (env : Env) (lines : List Bytes) (p q : Int × State)
    (hc : p.1 = q.1) (h : SameView p.2 q.2) :
    SameView (lines.foldl (processLine env) p).2 (lines.foldl (processLine env) q).2 := by
  induction lines generalizing p q with
  | nil => exact h
  | cons l ls ih =>
    have := processLine_sameView env p q l hc h
    exact ih _ _ this.1 this.2

/-! ## The checkpoint on well-formed input -/

theorem foldl_processLine_curNum (env : Env) (lines : List Bytes) (p : Int × State) :
    (lines.foldl (processLine env) p).1 = p.1 + ((joinLines lines).length : Int) := by
  induction lines generalizing p with
  | nil => simp [joinLines]
  | cons l ls ih =>
    rw [List.foldl_cons, ih, joinLines_cons]
    simp only [processLine, List.length_append, List.length_cons]
    push_cast
    ring

theorem foldl_processLine_persistent (env : Env) (lines : List Bytes) (p : Int × State)
    (hne : lines ≠ []) :
    (lines.foldl (processLine env) p).2.files.persistent =
      itoa (lines.foldl (processLine env) p).1 := by
  induction lines generalizing p with
  | nil => exact absurd rfl hne
  | cons l ls ih =>
    cases ls with
    | nil => simp [processLine]
    | cons l2 ls2 =>
      rw [List.foldl_cons]
      exact ih _ (by simp)

/-! ## Resuming after an interruption -/

theorem inputLines_zero (ls : List Bytes)
    (h : ∀ l ∈ ls, 10 ∉ l ∧ l.length < defaultBufSize ∧ l.getLast? ≠ some 13) :
    inputLines (joinLines ls) 0 = ls := by
  have := readLines_joinLines ls [] h
  rw [List.append_nil, readLines_nil, List.append_nil] at this
  simpa [inputLines, discard] using this

theorem inputLines_after (ls : List Bytes) (k : Nat)
    (h : ∀ l ∈ ls, 10 ∉ l ∧ l.length < defaultBufSize ∧ l.getLast? ≠ some 13) :
    inputLines (joinLines ls) ((joinLines (ls.take k)).length : Int) = ls.drop k := by
  have hsplit : joinLines ls = joinLines (ls.take k) ++ joinLines (ls.drop k) := by
    rw [← joinLines_append, List.take_append_drop]
  have hd := readLines_joinLines (ls.drop k) [] (fun l hl => h l (List.mem_of_mem_drop hl))
  rw [List.append_nil, readLines_nil, List.append_nil] at hd
  have hneg : ¬ ((joinLines (ls.take k)).length : Int) < 0 := by omega
  simp only [inputLines, discard, hneg, if_false, Int.toNat_ofNat]
  rw [hsplit, List.drop_left, hd]

/-- C2 (as amended). Resumability: let the input consist of newline-terminated lines that
hold no carriage return and are at most 680 bytes long (so every record fits the
4096-byte buffer of the line reader), let the file size fit a Go `int`, let the output
log and the domains log each be empty or end with a newline, and let `json.Unmarshal`
return the address of every record the encoder writes.  Then for every pattern, every
fixed lookup and every `k`: stopping the run after `k` lines (equally: running it on the
first `k` lines only) and then starting a fresh run on the full input (maps re-seeded from
the logs, offset from the checkpoint file) leaves the same output log, domains log and
checkpoint as one uninterrupted run. -/
theorem resume_yields_same_output (env : Env) (ls : List Bytes) (k : Nat) (out0 dom0 : Bytes)
    (hjson : ∀ e, syntaxCheck e = true → env.unmarshal (encodeEmailField e) = e)
    (hin : ∀ l ∈ ls, 10 ∉ l ∧ 13 ∉ l ∧ 6 * l.length + 12 < 4096)
    (hsize : (joinLines ls).length < 2 ^ 63)
    (hout : out0 = [] ∨ out0.getLast? = some 10)
    (hdom : dom0 = [] ∨ dom0.getLast? = some 10) :
    main env (joinLines ls)
        (mainSteps env (joinLines ls)
          { output := out0, domainsFile := dom0, persistent := [] } k).2.files =
      main env (joinLines ls) { output := out0, domainsFile := dom0, persistent := [] } ∧
    main env (joinLines ls)
        (main env (joinLines (ls.take k))
          { output := out0, domainsFile := dom0, persistent := [] }) =
      main env (joinLines ls) { output := out0, domainsFile := dom0, persistent := [] } := by
  have hclean : ∀ l ∈ ls, 10 ∉ l ∧ l.length < defaultBufSize ∧ l.getLast? ≠ some 13 := by
    intro l hl
    obtain ⟨h1, h2, h3⟩ := hin l hl
    exact ⟨h1, by simp only [defaultBufSize]; omega, getLast?_ne_of_not_mem l 13 h2⟩
  have hsmall : ∀ l ∈ ls, Small l := hin
  have hstart : (startup env { output := out0, domainsFile := dom0, persistent := [] }).1 = 0 := rfl
  have hfull : main env (joinLines ls) { output := out0, domainsFile := dom0, persistent := [] } =
      (ls.foldl (processLine env)
        (startup env { output := out0, domainsFile := dom0, persistent := [] })).2.files := by
    unfold main
    rw [hstart, inputLines_zero ls hclean]
  have hpart : mainSteps env (joinLines ls)
        { output := out0, domainsFile := dom0, persistent := [] } k =
      (ls.take k).foldl (processLine env)
        (startup env { output := out0, domainsFile := dom0, persistent := [] }) := by
    unfold mainSteps
    rw [hstart, inputLines_zero ls hclean]
  have hshort : main env (joinLines (ls.take k))
        { output := out0, domainsFile := dom0, persistent := [] } =
      (mainSteps env (joinLines ls)
        { output := out0, domainsFile := dom0, persistent := [] } k).2.files := by
    rw [hpart]
    unfold main
    rw [hstart, inputLines_zero (ls.take k) (fun l hl => hclean l (List.mem_of_mem_take hl))]
  rw [hshort, and_self, hpart, hfull]
  by_cases hk : ls.take k = []
  · rw [hk, List.foldl_nil]
    exact hfull
  · generalize hP : (ls.take k).foldl (processLine env)
        (startup env { output := out0, domainsFile := dom0, persistent := [] }) = P
    have hcur : P.1 = ((joinLines (ls.take k)).length : Int) := by
      rw [← hP, foldl_processLine_curNum, hstart, zero_add]
    have hpers : P.2.files.persistent = itoa P.1 := by
      rw [← hP]; exact foldl_processLine_persistent env _ _ hk
    have hsync : Synced env P.2 := by
      rw [← hP]
      exact foldl_processLine_synced env hjson _ _
        (fun l hl => hsmall l (List.mem_of_mem_take hl))
        ⟨fun _ => Iff.rfl, fun _ => Iff.rfl, hout, hdom⟩
    have hle : (joinLines (ls.take k)).length ≤ (joinLines ls).length := by
      have : joinLines ls = joinLines (ls.take k) ++ joinLines (ls.drop k) := by
        rw [← joinLines_append, List.take_append_drop]
      rw [this, List.length_append]; omega
    have hload : (startup env P.2.files).1 = P.1 := by
      show loadCheckpoint P.2.files.persistent = P.1
      rw [hpers, hcur]
      exact loadCheckpoint_itoa _ (lt_of_le_of_lt hle hsize)
    have hview : SameView P.2 (startup env P.2.files).2 := ⟨rfl, hsync.1, hsync.2.1⟩
    have hwhole : ls.foldl (processLine env)
        (startup env { output := out0, domainsFile := dom0, persistent := [] }) =
        (ls.drop k).foldl (processLine env) P := by
      rw [← hP, ← List.foldl_append, List.take_append_drop]
    have hres : main env (joinLines ls) P.2.files =
        ((ls.drop k).foldl (processLine env) (startup env P.2.files)).2.files := by
      unfold main
      rw [hload, hcur, inputLines_after ls k hclean]
    rw [hres, hwhole]
    exact (foldl_processLine_sameView env (ls.drop k) P (startup env P.2.files)
      hload.symm hview).1.symm

/-- C2 (as amended) at a concrete input: three lines, a log that already records `x@b.co`, interruption after the first line. -/
theorem resume_yields_same_output_witness :
    main (defaultEnv (resolving [ascii "d.ee", ascii "b.co"]))
        (joinLines [ascii "write to y@d.ee", ascii "or x@b.co, y@d.ee", ascii "z@b.co"])
        (mainSteps (defaultEnv (resolving [ascii "d.ee", ascii "b.co"]))
          (joinLines [ascii "write to y@d.ee", ascii "or x@b.co, y@d.ee", ascii "z@b.co"])
          { output := encodeEmailField (ascii "x@b.co") ++ [10],
            domainsFile := ascii "b.co\n", persistent := [] } 1).2.files =
      main (defaultEnv (resolving [ascii "d.ee", ascii "b.co"]))
        (joinLines [ascii "write to y@d.ee", ascii "or x@b.co, y@d.ee", ascii "z@b.co"])
        { output := encodeEmailField (ascii "x@b.co") ++ [10],
          domainsFile := ascii "b.co\n", persistent := [] } :=
  (resume_yields_same_output (defaultEnv (resolving [ascii "d.ee", ascii "b.co"]))
    [ascii "write to y@d.ee", ascii "or x@b.co, y@d.ee", ascii "z@b.co"] 1
    (encodeEmailField (ascii "x@b.co") ++ [10]) (ascii "b.co\n")
    (fun e _ => unmarshal_encode e) (by decide) (by decide) (by decide) (by decide)).1

/-- Seeding from a log of complete records that fit the reader's buffer puts every
recorded address into the dedupe index. -/
theorem readEmails_seeds (env : Env) (ls0 : List Bytes) (E : Bytes)
    (hjson : env.unmarshal (encodeEmailField E) = E)
    (h : ∀ l ∈ ls0, 10 ∉ l ∧ l.length < defaultBufSize ∧ l.getLast? ≠ some 13)
    (hE : encodeEmailField E ∈ ls0) : E ∈ readEmails env [] (joinLines ls0) := by
  have := readLines_joinLines ls0 [] h
  rw [List.append_nil, readLines_nil, List.append_nil] at this
  rw [mem_readEmails, this]
  exact Or.inr ⟨encodeEmailField E, hE, hjson⟩

/-- Where the checkpoint is exact: on input made of newline-terminated lines that do not
end in a carriage return and fit the reader's buffer, started without a checkpoint file,
the checkpoint after `k` lines is the byte length of those lines, it does not exceed the
file size, and discarding that many bytes leaves exactly the lines not yet processed. -/
theorem checkpoint_exact_on_terminated_lines (env : Env) (ls : List Bytes) (k : Nat)
    (out0 dom0 : Bytes)
    (h : ∀ l ∈ ls, 10 ∉ l ∧ l.length < defaultBufSize ∧ l.getLast? ≠ some 13) :
    (mainSteps env (joinLines ls)
        { output := out0, domainsFile := dom0, persistent := [] } k).1 =
      ((joinLines (ls.take k)).length : Int) ∧
    (joinLines (ls.take k)).length ≤ (joinLines ls).length ∧
    discard ((joinLines (ls.take k)).length : Int) (joinLines ls) = joinLines (ls.drop k) := by
  have hstart : (startup env { output := out0, domainsFile := dom0, persistent := [] }).1 = 0 := rfl
  have hsplit : joinLines ls = joinLines (ls.take k) ++ joinLines (ls.drop k) := by
    rw [← joinLines_append, List.take_append_drop]
  refine ⟨?_, ?_, ?_⟩
  · unfold mainSteps
    rw [hstart, inputLines_zero ls h, foldl_processLine_curNum, hstart, zero_add]
  · rw [hsplit, List.length_append]; omega
  · have hneg : ¬ ((joinLines (ls.take k)).length : Int) < 0 := by omega
    simp only [discard, hneg, if_false, Int.toNat_ofNat]
    rw [hsplit, List.drop_left]

/-! ## Occurrences of a record in the output log -/

end EmailScraper
